import Mathlib

/-!
Verification of the recovery package signature verifier (`verifier.c`).

A shallow embedding of the two verification modes of the recovery verifier:

* whole-file mode (`verify_file`): an RSA signature over a prefix of the
  archive, carried in the ZIP comment region;
* JAR mode (`verify_jar_signature`): the `META-INF/*.RSA` → `*.SF` →
  `MANIFEST.MF` → entries chain.

Modelling conventions:

* Bytes are `Nat` (values < 256 in well-formed inputs); byte strings are
  `List Nat`.  A file on disk is its byte list; opening the file succeeds and
  reads return exactly the stored bytes (I/O failures are out of scope).
* The SHA-1 and RSA primitives (`mincrypt`) are external black boxes; they are
  abstracted by a `Crypto` structure.  The streaming `SHA_init`/`SHA_update`/
  `SHA_final` protocol is modelled by applying `Crypto.sha1` to the
  concatenation of all bytes fed to the context.  `RSA_verify(key, sig, len,
  digest)` is `Crypto.rsaVerify key sig digest`; an `RSAPublicKey` is an
  opaque `Nat` handle.
* The C `double` progress values are modelled as exact rationals (`ℚ`);
  `0.02` is `1/50`.  `ui_set_progress` calls are collected into a trace list.
* The ZIP reader (`minzip`) is external: an archive is its entry list; each
  entry carries its name bytes, decompressed contents, and CRC-intactness
  bit.  `mzGetZipEntryUncompLen` equals the length of the contents,
  `mzProcessZipEntryContents` streams exactly the contents and succeeds,
  `mzFindZipEntry` finds the first entry with the given name, and
  `mzGetZipEntryIndex` is the position of that entry.  Entry names contain no NUL
  bytes and name comparisons never run past the stored name.
-/

/-- Constant `RSANUMBYTES` from mincrypt/rsa.h (RSA-2048 modulus size). -/
def RSANUMBYTES : Nat := 256

/-- Constant `SHA_DIGEST_SIZE` from mincrypt/sha.h. -/
def SHA_DIGEST_SIZE : Nat := 20

/-- Constant `FOOTER_SIZE` (6) of `verify_file`. -/
def FOOTER_SIZE : Nat := 6

/-- Constant `EOCD_HEADER_SIZE` (22) of `verify_file`. -/
def EOCD_HEADER_SIZE : Nat := 22

/-- Constant `BUFFER_SIZE` (4096) of `verify_file`. -/
def BUFFER_SIZE : Nat := 4096

/-- Return code `VERIFY_SUCCESS` of `verify_file`. -/
def VERIFY_SUCCESS : Nat := 0

/-- Return code `VERIFY_FAILURE` of `verify_file`. -/
def VERIFY_FAILURE : Nat := 1

/-- The black-box cryptographic primitives (mincrypt): a SHA-1 function from
byte strings to digests, and PKCS#1 v1.5 RSA verification of a digest against
a signature under an (opaque) public key. -/
structure Crypto where
  sha1 : List Nat → List Nat
  rsaVerify : Nat → List Nat → List Nat → Bool

/-- The trailing `FOOTER_SIZE` bytes of the file (read by `verify_file` after
`fseek(f, -FOOTER_SIZE, SEEK_END)`). -/
def footerOf (file : List Nat) : List Nat :=
  file.drop (file.length - FOOTER_SIZE)

/-- The signature bytes handed to `RSA_verify` in whole-file mode:
`eocd + eocd_size - 6 - RSANUMBYTES`.  The `eocd` buffer holds the trailing
`eocd_size` bytes of the file, so this pointer addresses the `RSANUMBYTES`
file bytes that end `FOOTER_SIZE` bytes before the end of the file,
independently of `eocd_size` (when `eocd_size < 6 + RSANUMBYTES` the C code
reads before the heap buffer; the model uses the file bytes at the addressed
positions). -/
def sigBytesOf (file : List Nat) : List Nat :=
  (file.drop (file.length - FOOTER_SIZE - RSANUMBYTES)).take RSANUMBYTES

/-- Does the ZIP end-of-central-directory magic `50 4B 05 06` occur at offset
`i` of `l`?  (The comparison `eocd[i] == 0x50 && ... && eocd[i+3] == 0x06`.) -/
def hasMagicAt (l : List Nat) (i : Nat) : Bool :=
  (l.getD i 0 == 0x50) && (l.getD (i+1) 0 == 0x4b) &&
  (l.getD (i+2) 0 == 0x05) && (l.getD (i+3) 0 == 0x06)

/-- The body of the hostile-EOCD scan, with the remaining iteration count
made explicit so the function is structurally recursive (and hence
kernel-computable): scans offsets `[i, i + fuel)`. -/
def eocdScanGo (l : List Nat) : Nat → Nat → Bool
  | 0, _ => false
  | fuel + 1, i => hasMagicAt l i || eocdScanGo l fuel (i + 1)

/-- The hostile-EOCD scan `for (i = 4; i < eocd_size-3; ++i)` of
`verify_file`, searching `[i, stop)` for a further occurrence of the EOCD
magic. -/
def eocdScan (l : List Nat) (i stop : Nat) : Bool :=
  eocdScanGo l (stop - i) i

/-- The body of the hashing loop of `verify_file` (bytes side), with a fuel
argument bounding the number of remaining loop iterations so the function is
structurally recursive; each iteration advances by at least one byte, so
`signedLen - soFar` iterations always suffice. -/
def wfChunksGo (file : List Nat) (signedLen : Nat) : Nat → Nat → List Nat
  | 0, _ => []
  | fuel + 1, soFar =>
    if soFar < signedLen then
      (file.drop soFar).take (min BUFFER_SIZE (signedLen - soFar)) ++
        wfChunksGo file signedLen fuel
          (soFar + min BUFFER_SIZE (signedLen - soFar))
    else []

/-- The bytes fed to `SHA_update` by the hashing loop of `verify_file`: the
file bytes `[soFar, signedLen)` read in chunks of at most `BUFFER_SIZE`. -/
def wfChunks (file : List Nat) (signedLen soFar : Nat) : List Nat :=
  wfChunksGo file signedLen (signedLen - soFar) soFar

/-- The `ui_set_progress` emissions of the hashing loop of `verify_file`
(they depend only on `signedLen`, not on the bytes read).  `frac` is the
last-reported fraction (initially `-1.0`); after each chunk the loop computes
`f = so_far / signed_len` and reports it when `f > frac + 0.02` or when the
chunk was the first one (`size == so_far`).  The first argument of the `Go`
form is fuel bounding the remaining iterations (each advances ≥ 1 byte). -/
def wfLoopTraceGo (signedLen : Nat) : Nat → Nat → ℚ → List ℚ
  | 0, _, _ => []
  | fuel + 1, soFar, frac =>
    if soFar < signedLen then
      let size := min BUFFER_SIZE (signedLen - soFar)
      let f : ℚ := ((soFar + size : Nat) : ℚ) / (signedLen : ℚ)
      if frac + 1/50 < f ∨ size = soFar + size then
        f :: wfLoopTraceGo signedLen fuel (soFar + size) f
      else
        wfLoopTraceGo signedLen fuel (soFar + size) frac
    else []

/-- The progress emissions of the hashing loop starting at `soFar` with last
report `frac` (`wfLoopTraceGo` with enough fuel for the whole loop). -/
def wfLoopTrace (signedLen soFar : Nat) (frac : ℚ) : List ℚ :=
  wfLoopTraceGo signedLen (signedLen - soFar) soFar frac

/-- Model of `verify_file(path, pKeys, numKeys)` together with the sequence of values
passed to `ui_set_progress` during the call.  Follows the source line by
line: initial `ui_set_progress(0.0)`; seek/read of the 6-byte footer (fails
when the file is shorter than 6 bytes); the `0xFF 0xFF` sentinel check; the
`signature_start - FOOTER_SIZE < RSANUMBYTES` check; seek/read of the
`comment_size + EOCD_HEADER_SIZE` tail (fails when it exceeds the file);
the EOCD magic check at offset 0; the hostile-EOCD scan; SHA-1 of bytes
`[0, signed_len)` with progress reports; and the key trial loop. -/
def verify_file_run (c : Crypto) (keys : List Nat) (file : List Nat) :
    Nat × List ℚ :=
  let trace0 : List ℚ := [0]
  if file.length < FOOTER_SIZE then (VERIFY_FAILURE, trace0) else
  let footer := footerOf file
  if footer.getD 2 0 ≠ 0xff ∨ footer.getD 3 0 ≠ 0xff then
    (VERIFY_FAILURE, trace0) else
  let comment_size := footer.getD 4 0 + footer.getD 5 0 * 256
  let signature_start := footer.getD 0 0 + footer.getD 1 0 * 256
  if (signature_start : Int) - (FOOTER_SIZE : Int) < (RSANUMBYTES : Int) then
    (VERIFY_FAILURE, trace0) else
  let eocd_size := comment_size + EOCD_HEADER_SIZE
  if file.length < eocd_size then (VERIFY_FAILURE, trace0) else
  let signed_len := file.length - eocd_size + EOCD_HEADER_SIZE - 2
  let eocd := file.drop (file.length - eocd_size)
  if eocd.getD 0 0 ≠ 0x50 ∨ eocd.getD 1 0 ≠ 0x4b ∨
     eocd.getD 2 0 ≠ 0x05 ∨ eocd.getD 3 0 ≠ 0x06 then
    (VERIFY_FAILURE, trace0) else
  if eocdScan eocd 4 (eocd_size - 3) then (VERIFY_FAILURE, trace0) else
  let trace := trace0 ++ wfLoopTrace signed_len 0 (-1)
  let sha1 := c.sha1 (wfChunks file signed_len 0)
  if keys.any (fun k => c.rsaVerify k (sigBytesOf file) sha1) then
    (VERIFY_SUCCESS, trace)
  else (VERIFY_FAILURE, trace)

/-- The return value of `verify_file`. -/
def verify_file (c : Crypto) (keys : List Nat) (file : List Nat) : Nat :=
  (verify_file_run c keys file).1

/-- The sequence of values passed to `ui_set_progress` by `verify_file`. -/
def verify_file_trace (c : Crypto) (keys : List Nat) (file : List Nat) :
    List ℚ :=
  (verify_file_run c keys file).2

/-! ## The ZIP archive model (the `minzip` interface consumed by the JAR mode) -/

/-- A ZIP archive member: its file name bytes, its decompressed contents, and
its CRC-intactness bit (`mzIsZipEntryIntact`).  `mzGetZipEntryUncompLen` is
the length of the contents. -/
structure ZipEntry where
  name : List Nat
  data : List Nat
  intact : Bool
deriving DecidableEq

instance : Inhabited ZipEntry := ⟨⟨[], [], false⟩⟩

/-- An open ZIP archive: its entries, in stable index order. -/
structure ZipArchive where
  entries : List ZipEntry
deriving DecidableEq

/-- The accessor `mzGetZipEntryAt` (out-of-range indices never occur in the loops). -/
def entryAt (a : ZipArchive) (i : Nat) : ZipEntry :=
  a.entries.getD i default

/-- Model of `slurpEntry`: NULL when the entry is not intact, else its contents (the
C code appends a terminating NUL to the buffer; the later C-string parsing is
modelled by `cString`). -/
def slurpEntry (a : ZipArchive) (i : Nat) : Option (List Nat) :=
  if (entryAt a i).intact then some (entryAt a i).data else none

/-- The prefix of a buffer up to the first NUL byte: what the C string
functions (`strtok_r`, `strncasecmp`, ...) see of a `slurpEntry` buffer. -/
def cString (l : List Nat) : List Nat :=
  l.takeWhile (fun b => b ≠ 0)

/-- ASCII `tolower` as used by `strncasecmp`. -/
def lowerByte (b : Nat) : Nat :=
  if 65 ≤ b ∧ b ≤ 90 then b + 32 else b

/-- Case-insensitive byte-string equality. -/
def eqNoCase (xs ys : List Nat) : Bool :=
  xs.map lowerByte == ys.map lowerByte

/-- The test `strncasecmp(line, pre, |pre|) == 0` for a NUL-free pattern `pre`. -/
def hasPrefixNoCase (pre line : List Nat) : Bool :=
  eqNoCase (line.take pre.length) pre

/-- The `strtok_r(buf, "\r\n", ...)` token stream: the maximal nonempty runs of
bytes other than CR and LF.  (`acc` holds the current token, reversed.) -/
def tokenizeGo : List Nat → List Nat → List (List Nat)
  | [], acc => if acc.isEmpty then [] else [acc.reverse]
  | b :: rest, acc =>
    if b = 13 ∨ b = 10 then
      if acc.isEmpty then tokenizeGo rest [] else acc.reverse :: tokenizeGo rest []
    else tokenizeGo rest (b :: acc)

/-- The lines of a manifest-style buffer, as produced by the `strtok_r` loops
of `verifyManifest` and `verifyArchive`. -/
def tokenize (l : List Nat) : List (List Nat) :=
  tokenizeGo l []

/-- ASCII bytes of `"META-INF/"` (the `prefix` constant of
`verifySignature`). -/
def metaInfBytes : List Nat := [77, 69, 84, 65, 45, 73, 78, 70, 47]

/-- ASCII bytes of `".RSA"`. -/
def rsaExtBytes : List Nat := [46, 82, 83, 65]

/-- ASCII bytes of `".SF"`. -/
def sfExtBytes : List Nat := [46, 83, 70]

/-- ASCII bytes of `"META-INF/MANIFEST.MF"`. -/
def manifestName : List Nat :=
  [77, 69, 84, 65, 45, 73, 78, 70, 47, 77, 65, 78, 73, 70, 69, 83, 84, 46, 77, 70]

/-- ASCII bytes of `"Name: "` (the `namePrefix` constant of
`verifyArchive`). -/
def nameHdr : List Nat := [78, 97, 109, 101, 58, 32]

/-- ASCII bytes of `" "` (the `contPrefix` constant of `verifyArchive`). -/
def contHdr : List Nat := [32]

/-- ASCII bytes of `"SHA1-Digest: "` (the `digestPrefix` constant of
`verifyArchive`). -/
def digestHdr : List Nat := [83, 72, 65, 49, 45, 68, 105, 103, 101, 115, 116, 58, 32]

/-- ASCII bytes of `"SHA1-Digest-Manifest: "` (the `prefix` constant of
`verifyManifest`). -/
def dmHdr : List Nat :=
  [83, 72, 65, 49, 45, 68, 105, 103, 101, 115, 116, 45, 77, 97, 110, 105, 102,
   101, 115, 116, 58, 32]

/-- ASCII bytes of `"(null)"`: what glibc `asprintf` prints for a `%s` whose
argument is NULL (the continuation-without-pending-name path of
`verifyArchive` logs an error but still concatenates). -/
def nullBytes : List Nat := [40, 110, 117, 108, 108, 41]

/-! ## The base64 decoder (`b64_pton` from resolv) -/

/-- C-locale `isspace`. -/
def isspaceB (b : Nat) : Bool :=
  b = 32 ∨ (9 ≤ b ∧ b ≤ 13)

/-- The `strchr(Base64, ch)` position of `ch` in the MIME base64 alphabet. -/
def b64index (ch : Nat) : Option Nat :=
  if 65 ≤ ch ∧ ch ≤ 90 then some (ch - 65)
  else if 97 ≤ ch ∧ ch ≤ 122 then some (ch - 97 + 26)
  else if 48 ≤ ch ∧ ch ≤ 57 then some (ch - 48 + 52)
  else if ch = 43 then some 62
  else if ch = 47 then some 63
  else none

/-- After the terminating pad handling: only whitespace may remain before the
end (or a NUL byte, treated as string end). -/
def b64_allSpace : List Nat → Bool
  | [] => true
  | ch :: rest =>
    if ch = 0 then true else if isspaceB ch then b64_allSpace rest else false

/-- The whitespace-skipping search for the second `=` of the state-2 pad
path of `b64_pton`: returns the remainder after that `=`, or `none`. -/
def b64_findPad : List Nat → Option (List Nat)
  | [] => none
  | ch :: rest =>
    if ch = 0 then none
    else if isspaceB ch then b64_findPad rest
    else if ch = 61 then some rest else none

/-- The common tail of the pad handling of `b64_pton`: nothing but
whitespace may remain, and the leftover bits in `target[tarindex]` must be
zero; on success the decoded byte count is `tarindex`. -/
def b64_tailCheck (src : List Nat) (tarindex : Nat) (target : List Nat) :
    Int × List Nat :=
  if b64_allSpace src ∧ target.getD tarindex 0 = 0 then
    ((tarindex : Int), target.take tarindex)
  else (-1, [])

/-- The state-2 pad path of `b64_pton` (a single data byte in the last
group): skip whitespace, require a second `=`, then `b64_tailCheck`. -/
def b64_padCase2 (src : List Nat) (tarindex : Nat) (target : List Nat) :
    Int × List Nat :=
  match b64_findPad src with
  | none => (-1, [])
  | some rest => b64_tailCheck rest tarindex target

/-- The main loop of `b64_pton` with its 4-state machine.  `target` models
the output buffer (length `targsize`); writes check the buffer bound first,
exactly as the C code does; explicit NUL bytes end the input. -/
def b64_go (targsize : Nat) (src : List Nat) (state tarindex : Nat)
    (target : List Nat) : Int × List Nat :=
  match src with
  | [] =>
    if state ≠ 0 then (-1, []) else ((tarindex : Int), target.take tarindex)
  | ch :: rest =>
    if ch = 0 then
      if state ≠ 0 then (-1, []) else ((tarindex : Int), target.take tarindex)
    else if isspaceB ch then b64_go targsize rest state tarindex target
    else if ch = 61 then
      match state with
      | 0 => (-1, [])
      | 1 => (-1, [])
      | 2 => b64_padCase2 rest tarindex target
      | _ => b64_tailCheck rest tarindex target
    else
      match b64index ch with
      | none => (-1, [])
      | some v =>
        match state with
        | 0 =>
          if targsize ≤ tarindex then (-1, [])
          else b64_go targsize rest 1 tarindex (target.set tarindex (v <<< 2))
        | 1 =>
          if targsize ≤ tarindex + 1 then (-1, [])
          else b64_go targsize rest 2 (tarindex + 1)
            ((target.set tarindex (target.getD tarindex 0 ||| (v >>> 4))).set
              (tarindex + 1) ((v &&& 15) <<< 4))
        | 2 =>
          if targsize ≤ tarindex + 1 then (-1, [])
          else b64_go targsize rest 3 (tarindex + 1)
            ((target.set tarindex (target.getD tarindex 0 ||| (v >>> 2))).set
              (tarindex + 1) ((v &&& 3) <<< 6))
        | _ =>
          if targsize ≤ tarindex then (-1, [])
          else b64_go targsize rest 0 (tarindex + 1)
            (target.set tarindex (target.getD tarindex 0 ||| v))

/-- Model of `b64_pton(src, target, targsize)`: the decoded byte count (`-1` on
error) and the decoded bytes. -/
def b64_pton (src : List Nat) (targsize : Nat) : Int × List Nat :=
  b64_go targsize src 0 0 (List.replicate targsize 0)

/-! ## `verifySignature`: find a `META-INF/xxx.SF` signed by `xxx.RSA` -/

/-- The candidate test of `verifySignature`:
`rsaLen >= RSANUMBYTES && rsaName.len > sizeof(prefix) &&
!strncmp(rsaName.str, "META-INF/", 9) &&
!strncmp(rsaName.str + rsaName.len - 4, ".RSA", 4)`
(`sizeof(prefix)` is 10, counting the NUL; both compares are
case-sensitive). -/
def isRsaName (e : ZipEntry) : Bool :=
  decide (RSANUMBYTES ≤ e.data.length) && decide (10 < e.name.length) &&
  (e.name.take 9 == metaInfBytes) &&
  (e.name.drop (e.name.length - 4) == rsaExtBytes)

/-- The sibling signature-file name: `.RSA` replaced by `.SF`
(`strncpy` of the first `len - 4` bytes followed by `strcpy(".SF")`). -/
def sfSibling (nm : List Nat) : List Nat :=
  nm.take (nm.length - 4) ++ sfExtBytes

/-- The lookup `mzFindZipEntry(pArchive, sfName)` followed by `mzGetZipEntryIndex`:
the index of the first entry named like the `.SF` sibling of entry `i`. -/
def sfIdxOf (a : ZipArchive) (i : Nat) : Option Nat :=
  a.entries.findIdx? (fun e2 => e2.name == sfSibling (entryAt a i).name)

/-- Does the key-trial loop of `verifySignature` succeed on candidate `i`?
The signature is the last `RSANUMBYTES` bytes of the contents of the
`.RSA` entry; the digest is SHA-1 of the contents of the `.SF` entry; the `.RSA`
entry must be intact for `slurpEntry` to succeed. -/
def candidateSuccess (c : Crypto) (keys : List Nat) (a : ZipArchive)
    (i : Nat) : Bool :=
  isRsaName (entryAt a i) &&
  match sfIdxOf a i with
  | none => false
  | some s =>
    (entryAt a i).intact &&
    keys.any (fun k =>
      c.rsaVerify k
        ((entryAt a i).data.drop ((entryAt a i).data.length - RSANUMBYTES))
        (c.sha1 (entryAt a s).data))

/-- The entry loop of `verifySignature`, with an explicit count of the
remaining entries so the function is structurally recursive: examines
entries `i, i+1, ...` and returns the index of the first `.SF` entry whose
sibling `.RSA` entry verifies under some key, else `none`. -/
def vsLoopGo (c : Crypto) (keys : List Nat) (a : ZipArchive) :
    Nat → Nat → Option Nat
  | 0, _ => none
  | fuel + 1, i =>
    if i < a.entries.length then
      if isRsaName (entryAt a i) then
        match sfIdxOf a i with
        | none => vsLoopGo c keys a fuel (i + 1)
        | some s =>
          if (entryAt a i).intact &&
             keys.any (fun k =>
               c.rsaVerify k
                 ((entryAt a i).data.drop
                   ((entryAt a i).data.length - RSANUMBYTES))
                 (c.sha1 (entryAt a s).data)) then
            some s
          else vsLoopGo c keys a fuel (i + 1)
      else vsLoopGo c keys a fuel (i + 1)
    else none

/-- The entry loop of `verifySignature` from index `i` on. -/
def vsLoop (c : Crypto) (keys : List Nat) (a : ZipArchive) (i : Nat) :
    Option Nat :=
  vsLoopGo c keys a (a.entries.length - i) i

/-- Model of `verifySignature(pArchive, pKeys, numKeys)`. -/
def verifySignature (c : Crypto) (keys : List Nat) (a : ZipArchive) :
    Option Nat :=
  vsLoop c keys a 0

/-! ## `verifyManifest`: check `MANIFEST.MF` against the `.SF` file -/

/-- The `strtok_r` loop of `verifyManifest`: the digest string of the first
line starting (case-insensitively) with `"SHA1-Digest-Manifest: "`. -/
def findDM : List (List Nat) → Option (List Nat)
  | [] => none
  | line :: rest =>
    if hasPrefixNoCase dmHdr line then some (line.drop 22) else findDM rest

/-- Model of `verifyManifest(pArchive, sfEntry)`: slurp the `.SF` entry, find its
`SHA1-Digest-Manifest` header, decode it into exactly `SHA_DIGEST_SIZE`
bytes, and compare with SHA-1 of `META-INF/MANIFEST.MF`.  Returns the
index of the manifest entry on success. -/
def verifyManifest (c : Crypto) (a : ZipArchive) (sfIdx : Nat) :
    Option Nat :=
  match slurpEntry a sfIdx with
  | none => none
  | some sfBuf =>
    match findDM (tokenize (cString sfBuf)) with
    | none => none
    | some ds =>
      let r := b64_pton ds (SHA_DIGEST_SIZE + 3)
      if r.1 ≠ (SHA_DIGEST_SIZE : Int) then none
      else
        match a.entries.findIdx? (fun e => e.name == manifestName) with
        | none => none
        | some mfIdx =>
          if r.2 = c.sha1 (entryAt a mfIdx).data then some mfIdx else none

/-! ## `verifyArchive`: check every entry against the manifest -/

/-- Is entry `i` subject to manifest coverage?  `verifyArchive` marks it in
the `unverified` array unless it is the manifest itself, a directory entry
(name ends in `/` and uncompressed length 0), or a `META-INF/` entry ending
case-insensitively in `.RSA` or `.SF`. -/
def isRequired (a : ZipArchive) (mfIdx i : Nat) : Bool :=
  let e := entryAt a i
  if i == mfIdx then false
  else if decide (0 < e.name.length) && (e.name.getD (e.name.length - 1) 0 == 47) &&
          decide (e.data.length = 0) then false
  else if hasPrefixNoCase metaInfBytes e.name &&
          (eqNoCase (e.name.drop (e.name.length - 4)) rsaExtBytes ||
           eqNoCase (e.name.drop (e.name.length - 3)) sfExtBytes) then false
  else true

/-- The initial `unverified` flag array of `verifyArchive` (`calloc` zeroes
it, then required entries are marked). -/
def initFlags (a : ZipArchive) (mfIdx : Nat) : List Bool :=
  (List.range a.entries.length).map (fun i => isRequired a mfIdx i)

/-- The parser state of the manifest loop of `verifyArchive`: the
`unverified` flag array, the pending stanza name (`name` in the C code,
NULL ↔ `none`), and — as proof instrumentation — the list of
`(entry index, expected digest)` pairs successfully matched so far. -/
structure MfState where
  unverified : List Bool
  pending : Option (List Nat)
  cleared : List (Nat × List Nat)
deriving DecidableEq

/-- The `strtok_r` line loop of `verifyArchive`.  Returns
`(broke early?, final state)`; `broke early? = true` models leaving the loop
by `break` with `line != NULL`, which makes `verifyArchive` return false. -/
def mfLoop (c : Crypto) (a : ZipArchive) :
    List (List Nat) → MfState → Bool × MfState
  | [], st => (false, st)
  | line :: rest, st =>
    if hasPrefixNoCase nameHdr line then
      match st.pending with
      | some _ => (true, st)
      | none => mfLoop c a rest { st with pending := some (line.drop 6) }
    else if hasPrefixNoCase contHdr line then
      mfLoop c a rest
        { st with pending := some (st.pending.getD nullBytes ++ line.drop 1) }
    else if hasPrefixNoCase digestHdr line then
      match st.pending with
      | none => (true, st)
      | some nm =>
        match a.entries.findIdx? (fun e => e.name == nm) with
        | none => (true, st)
        | some idx =>
          if !(entryAt a idx).intact then (true, st)
          else if st.unverified.getD idx false = false then (true, st)
          else
            let r := b64_pton (line.drop 13) (SHA_DIGEST_SIZE + 3)
            if r.1 ≠ (SHA_DIGEST_SIZE : Int) then (true, st)
            else if r.2 ≠ c.sha1 (entryAt a idx).data then (true, st)
            else
              mfLoop c a rest
                { unverified := st.unverified.set idx false
                  pending := none
                  cleared := st.cleared ++ [(idx, r.2)] }
    else mfLoop c a rest st

/-- Model of `verifyArchive(pArchive, mfEntry)` with its match trace: false when the
loop broke early or some `unverified` flag is still set at the end. -/
def verifyArchiveRun (c : Crypto) (a : ZipArchive) (mfIdx : Nat) :
    Bool × List (Nat × List Nat) :=
  match slurpEntry a mfIdx with
  | none => (false, [])
  | some mfBuf =>
    let r := mfLoop c a (tokenize (cString mfBuf)) ⟨initFlags a mfIdx, none, []⟩
    (if r.1 then false else r.2.unverified.all (fun b => b == false), r.2.cleared)

/-- Model of `verify_jar_signature(pArchive, pKeys, numKeys)` with the match trace of
its `verifyArchive` stage. -/
def verify_jar_run (c : Crypto) (keys : List Nat) (a : ZipArchive) :
    Bool × List (Nat × List Nat) :=
  match verifySignature c keys a with
  | none => (false, [])
  | some sfIdx =>
    match verifyManifest c a sfIdx with
    | none => (false, [])
    | some mfIdx => verifyArchiveRun c a mfIdx

/-- The return value of `verify_jar_signature`. -/
def verify_jar_signature (c : Crypto) (keys : List Nat) (a : ZipArchive) :
    Bool :=
  (verify_jar_run c keys a).1

/-! ## Basic list lemmas used by the verification -/

theorem getD_set_self {l : List Bool} {i : Nat} (b : Bool) (h : i < l.length) :
    (l.set i b).getD i false = b := by
  induction l generalizing i with
  | nil => simp at h
  | cons x xs ih =>
    cases i with
    | zero => simp [List.set, List.getD]
    | succ n =>
      simp only [List.set, List.getD_cons_succ]
      exact ih (by simpa using h)

theorem getD_set_ne {l : List Bool} {i j : Nat} (b : Bool) (h : i ≠ j) :
    (l.set i b).getD j false = l.getD j false := by
  induction l generalizing i j with
  | nil => simp [List.set]
  | cons x xs ih =>
    cases i with
    | zero =>
      cases j with
      | zero => exact absurd rfl h
      | succ m => simp [List.set]
    | succ n =>
      cases j with
      | zero => simp [List.set]
      | succ m =>
        simp only [List.set, List.getD_cons_succ]
        exact ih (by omega)

theorem getD_true_lt_length {l : List Bool} {i : Nat}
    (h : l.getD i false = true) : i < l.length := by
  induction l generalizing i with
  | nil => simp [List.getD] at h
  | cons x xs ih =>
    cases i with
    | zero => simp
    | succ n =>
      simp only [List.getD_cons_succ] at h
      simpa using ih h

theorem all_false_of_getD {l : List Bool}
    (h : l.all (fun b => b == false) = true) (i : Nat) :
    l.getD i false = false := by
  induction l generalizing i with
  | nil => simp [List.getD]
  | cons x xs ih =>
    simp only [List.all_cons, Bool.and_eq_true, beq_iff_eq] at h
    cases i with
    | zero => simpa using h.1
    | succ n => simpa using ih h.2 n

theorem getD_true_all_ne_false {l : List Bool} {i : Nat}
    (h : l.getD i false = true) : l.all (fun b => b == false) = false := by
  cases hall : l.all (fun b => b == false) with
  | false => rfl
  | true =>
    have := all_false_of_getD hall i
    rw [this] at h
    exact absurd h (by simp)

theorem initFlags_getD (a : ZipArchive) (m i : Nat) :
    (initFlags a m).getD i false =
      if i < a.entries.length then isRequired a m i else false := by
  unfold initFlags
  rcases Nat.lt_or_ge i a.entries.length with h | h
  · rw [if_pos h]
    rw [List.getD_eq_getElem?_getD, List.getElem?_map, List.getElem?_range h]
    rfl
  · rw [if_neg (by omega)]
    rw [List.getD_eq_getElem?_getD, List.getElem?_map,
      List.getElem?_eq_none (by simpa using h)]
    rfl

/-! ## The hostile-EOCD scan finds the magic iff it occurs in range -/

theorem eocdScanGo_iff (l : List Nat) :
    ∀ fuel i, eocdScanGo l fuel i = true ↔
      ∃ j, i ≤ j ∧ j < i + fuel ∧ hasMagicAt l j = true := by
  intro fuel
  induction fuel with
  | zero =>
    intro i
    constructor
    · intro h
      exact absurd h (by simp [eocdScanGo])
    · rintro ⟨j, h1, h2, -⟩
      omega
  | succ fuel ih =>
    intro i
    simp only [eocdScanGo]
    cases hm : hasMagicAt l i with
    | false =>
      rw [Bool.false_or, ih (i + 1)]
      constructor
      · rintro ⟨j, h1, h2, h3⟩
        exact ⟨j, by omega, by omega, h3⟩
      · rintro ⟨j, h1, h2, h3⟩
        refine ⟨j, ?_, by omega, h3⟩
        rcases Nat.eq_or_lt_of_le h1 with rfl | hlt
        · rw [hm] at h3
          exact absurd h3 (by simp)
        · omega
    | true =>
      rw [Bool.true_or]
      exact iff_of_true rfl ⟨i, Nat.le_refl i, by omega, hm⟩

theorem eocdScan_iff (l : List Nat) (i stop : Nat) :
    eocdScan l i stop = true ↔
      ∃ j, i ≤ j ∧ j < stop ∧ hasMagicAt l j = true := by
  unfold eocdScan
  rw [eocdScanGo_iff]
  constructor
  · rintro ⟨j, h1, h2, h3⟩
    exact ⟨j, h1, by omega, h3⟩
  · rintro ⟨j, h1, h2, h3⟩
    exact ⟨j, h1, by omega, h3⟩

/-! ## The hashing loop feeds exactly the signed prefix to SHA-1 -/

theorem wfChunksGo_eq (file : List Nat) (s : Nat) :
    ∀ fuel n, s - n ≤ fuel →
      wfChunksGo file s fuel n = (file.drop n).take (s - n) := by
  intro fuel
  induction fuel with
  | zero =>
    intro n h
    have h0 : s - n = 0 := by omega
    rw [h0]
    simp [wfChunksGo]
  | succ fuel ih =>
    intro n h
    simp only [wfChunksGo]
    by_cases hn : n < s
    · rw [if_pos hn]
      have hsz : 0 < min BUFFER_SIZE (s - n) := by
        simp only [BUFFER_SIZE]; omega
      set m := min BUFFER_SIZE (s - n) with hm
      rw [ih (n + m) (by omega)]
      have h1 : List.drop (n + m) file = List.drop m (List.drop n file) := by
        rw [List.drop_drop, Nat.add_comm]
      rw [h1]
      have h2 : s - n = m + (s - (n + m)) := by
        have hle : m ≤ s - n := Nat.min_le_right _ _
        omega
      rw [h2, List.take_add]
    · rw [if_neg hn]
      have h0 : s - n = 0 := by omega
      rw [h0, List.take_zero]

theorem wfChunks_eq_take (file : List Nat) (s : Nat) :
    wfChunks file s 0 = file.take s := by
  unfold wfChunks
  rw [wfChunksGo_eq file s (s - 0) 0 (by omega), List.drop_zero, Nat.sub_zero]

/-! ## Properties of the progress emissions of the hashing loop -/

theorem wfLoopTraceGo_succ (s fuel n : Nat) (fr : ℚ) (h : n < s) :
    wfLoopTraceGo s (fuel + 1) n fr =
      if fr + 1/50 < ((n + min BUFFER_SIZE (s - n) : Nat) : ℚ) / (s : ℚ)
         ∨ min BUFFER_SIZE (s - n) = n + min BUFFER_SIZE (s - n) then
        ((n + min BUFFER_SIZE (s - n) : Nat) : ℚ) / (s : ℚ)
          :: wfLoopTraceGo s fuel (n + min BUFFER_SIZE (s - n))
               (((n + min BUFFER_SIZE (s - n) : Nat) : ℚ) / (s : ℚ))
      else wfLoopTraceGo s fuel (n + min BUFFER_SIZE (s - n)) fr := by
  simp only [wfLoopTraceGo]
  rw [if_pos h]

theorem wfLoopTraceGo_stop (s fuel n : Nat) (fr : ℚ) (h : ¬ n < s) :
    wfLoopTraceGo s (fuel + 1) n fr = [] := by
  simp only [wfLoopTraceGo]
  rw [if_neg h]

theorem wfLoopTraceGo_mem (s : Nat) :
    ∀ fuel n (fr : ℚ), ∀ x ∈ wfLoopTraceGo s fuel n fr,
      ((n : ℚ)) / (s : ℚ) < x ∧ x ≤ 1 := by
  intro fuel
  induction fuel with
  | zero =>
    intro n fr x hx
    exact absurd hx (by simp [wfLoopTraceGo])
  | succ fuel ih =>
    intro n fr x hx
    by_cases h : n < s
    · rw [wfLoopTraceGo_succ s fuel n fr h] at hx
      set m := min BUFFER_SIZE (s - n) with hmdef
      have hm : 0 < m := by rw [hmdef]; simp only [BUFFER_SIZE]; omega
      have hle : m ≤ s - n := by rw [hmdef]; exact Nat.min_le_right _ _
      have hs : (0 : ℚ) < (s : ℚ) := by
        have h0 : 0 < s := by omega
        exact_mod_cast h0
      have hflt : ((n : ℚ)) / (s : ℚ) < ((n + m : Nat) : ℚ) / (s : ℚ) := by
        rw [div_lt_div_iff_of_pos_right hs]
        exact_mod_cast (by omega : n < n + m)
      have hfle : ((n + m : Nat) : ℚ) / (s : ℚ) ≤ 1 := by
        rw [div_le_one hs]
        exact_mod_cast (by omega : n + m ≤ s)
      split at hx
      · rcases List.mem_cons.mp hx with rfl | hx2
        · exact ⟨hflt, hfle⟩
        · have hrec := ih (n + m) _ x hx2
          exact ⟨hflt.trans hrec.1, hrec.2⟩
      · have hrec := ih (n + m) fr x hx
        exact ⟨hflt.trans hrec.1, hrec.2⟩
    · rw [wfLoopTraceGo_stop s fuel n fr h] at hx
      exact absurd hx (List.not_mem_nil x)

theorem wfLoopTrace_mem (s n : Nat) (fr : ℚ) (x : ℚ)
    (hx : x ∈ wfLoopTrace s n fr) : ((n : ℚ)) / (s : ℚ) < x ∧ x ≤ 1 :=
  wfLoopTraceGo_mem s (s - n) n fr x hx

theorem wfLoopTraceGo_pairwise (s : Nat) :
    ∀ fuel n (fr : ℚ), List.Pairwise (· < ·) (wfLoopTraceGo s fuel n fr) := by
  intro fuel
  induction fuel with
  | zero =>
    intro n fr
    simp [wfLoopTraceGo]
  | succ fuel ih =>
    intro n fr
    by_cases h : n < s
    · rw [wfLoopTraceGo_succ s fuel n fr h]
      split
      · refine List.pairwise_cons.mpr ⟨?_, ih _ _⟩
        intro y hy
        exact (wfLoopTraceGo_mem s fuel _ _ y hy).1
      · exact ih _ fr
    · rw [wfLoopTraceGo_stop s fuel n fr h]
      exact List.Pairwise.nil

theorem wfLoopTrace_pairwise (s n : Nat) (fr : ℚ) :
    List.Pairwise (· < ·) (wfLoopTrace s n fr) :=
  wfLoopTraceGo_pairwise s (s - n) n fr

theorem wfLoopTraceGo_lastD (s : Nat) :
    ∀ fuel n (fr : ℚ), s - n ≤ fuel → n < s →
      (49 : ℚ)/50 ≤ (wfLoopTraceGo s fuel n fr).getLastD fr := by
  intro fuel
  induction fuel with
  | zero =>
    intro n fr hk hn
    omega
  | succ fuel ih =>
    intro n fr hk hn
    rw [wfLoopTraceGo_succ s fuel n fr hn]
    set m := min BUFFER_SIZE (s - n) with hmdef
    have hm : 0 < m := by rw [hmdef]; simp only [BUFFER_SIZE]; omega
    have hle : m ≤ s - n := by rw [hmdef]; exact Nat.min_le_right _ _
    have hs : (0 : ℚ) < (s : ℚ) := by
      have h0 : 0 < s := by omega
      exact_mod_cast h0
    by_cases h2 : n + m < s
    · split
      · rw [List.getLastD_cons]
        exact ih (n + m) _ (by omega) h2
      · exact ih (n + m) fr (by omega) h2
    · have hnm : n + m = s := by omega
      have hf1 : ((n + m : Nat) : ℚ) / (s : ℚ) = 1 := by
        rw [hnm]
        exact div_self (ne_of_gt hs)
      split
      · rw [List.getLastD_cons]
        cases fuel with
        | zero =>
          simp only [wfLoopTraceGo, List.getLastD_nil]
          rw [hf1]
          norm_num
        | succ fuel2 =>
          rw [wfLoopTraceGo_stop s fuel2 (n + m) _ (by omega),
            List.getLastD_nil, hf1]
          norm_num
      · rename_i hcond
        push_neg at hcond
        have hcl := hcond.1
        rw [hf1] at hcl
        cases fuel with
        | zero =>
          simp only [wfLoopTraceGo, List.getLastD_nil]
          linarith
        | succ fuel2 =>
          rw [wfLoopTraceGo_stop s fuel2 (n + m) fr (by omega),
            List.getLastD_nil]
          linarith

theorem wfLoopTrace_lastD (s n : Nat) (fr : ℚ) (h : n < s) :
    (49 : ℚ)/50 ≤ (wfLoopTrace s n fr).getLastD fr :=
  wfLoopTraceGo_lastD s (s - n) n fr (Nat.le_refl _) h

/-! ## The decoder never exceeds its buffer, and reports its output length -/

/-- The specification of a `b64_pton`-style result relative to a buffer
bound: the count is `-1` or a true output length within the bound. -/
def B64Ok (targsize : Nat) (r : Int × List Nat) : Prop :=
  -1 ≤ r.1 ∧ r.1 ≤ (targsize : Int) ∧ r.2.length ≤ targsize ∧
    ∀ n : Nat, r.1 = (n : Int) → r.2.length = n

theorem b64_tailCheck_ok (src : List Nat) (tarindex : Nat)
    (target : List Nat) (ht : tarindex ≤ target.length) :
    B64Ok target.length (b64_tailCheck src tarindex target) := by
  unfold b64_tailCheck B64Ok
  split
  · refine ⟨by simp <;> omega, by simp <;> omega, ?_, ?_⟩
    · dsimp only
      simp only [List.length_take]
      omega
    · intro n h
      dsimp only at h ⊢
      simp only [List.length_take]
      omega
  · refine ⟨by simp <;> omega, by simp <;> omega, by simp <;> omega, ?_⟩
    intro n h
    dsimp only at h
    omega

theorem b64_padCase2_ok (src : List Nat) (tarindex : Nat)
    (target : List Nat) (ht : tarindex ≤ target.length) :
    B64Ok target.length (b64_padCase2 src tarindex target) := by
  unfold b64_padCase2
  split
  · refine ⟨by simp <;> omega, by simp <;> omega, by simp <;> omega, ?_⟩
    intro n h
    dsimp only at h
    omega
  · exact b64_tailCheck_ok _ _ _ ht

theorem b64_go_ok (targsize : Nat) (src : List Nat) :
    ∀ state tarindex (target : List Nat), tarindex ≤ targsize →
      target.length = targsize →
      B64Ok targsize (b64_go targsize src state tarindex target) := by
  induction src with
  | nil =>
    intro state tarindex target hti htl
    unfold b64_go B64Ok
    split
    · refine ⟨by simp <;> omega, by simp <;> omega, by simp <;> omega, ?_⟩
      intro n h
      dsimp only at h
      omega
    · refine ⟨by simp <;> omega, by simp <;> omega, ?_, ?_⟩
      · dsimp only
        simp only [List.length_take]
        omega
      · intro n h
        dsimp only at h ⊢
        simp only [List.length_take]
        omega
  | cons ch rest ih =>
    intro state tarindex target hti htl
    unfold b64_go
    by_cases h0 : ch = 0
    · rw [if_pos h0]
      unfold B64Ok
      split
      · refine ⟨by simp <;> omega, by simp <;> omega, by simp <;> omega, ?_⟩
        intro n h
        dsimp only at h
        omega
      · refine ⟨by simp <;> omega, by simp <;> omega, ?_, ?_⟩
        · dsimp only
          simp only [List.length_take]
          omega
        · intro n h
          dsimp only at h ⊢
          simp only [List.length_take]
          omega
    · rw [if_neg h0]
      by_cases hsp : isspaceB ch = true
      · rw [if_pos hsp]
        exact ih state tarindex target hti htl
      · rw [if_neg hsp]
        by_cases hpad : ch = 61
        · rw [if_pos hpad]
          split
          · refine ⟨by simp <;> omega, by simp <;> omega, by simp <;> omega, ?_⟩
            intro n h
            dsimp only at h
            omega
          · refine ⟨by simp <;> omega, by simp <;> omega, by simp <;> omega, ?_⟩
            intro n h
            dsimp only at h
            omega
          · have hb := b64_padCase2_ok rest tarindex target (by omega)
            rw [htl] at hb
            exact hb
          · have hb := b64_tailCheck_ok rest tarindex target (by omega)
            rw [htl] at hb
            exact hb
        · rw [if_neg hpad]
          cases hidx : b64index ch with
          | none =>
            simp only [hidx]
            refine ⟨by simp <;> omega, by simp <;> omega, by simp <;> omega, ?_⟩
            intro n h
            dsimp only at h
            omega
          | some v =>
            simp only [hidx]
            split
            · split
              · refine ⟨by simp <;> omega, by simp <;> omega, by simp <;> omega, ?_⟩
                intro n h
                dsimp only at h
                omega
              · exact ih 1 tarindex _ hti (by simpa using htl)
            · split
              · refine ⟨by simp <;> omega, by simp <;> omega, by simp <;> omega, ?_⟩
                intro n h
                dsimp only at h
                omega
              · rename_i hlt
                exact ih 2 (tarindex + 1) _ (by omega) (by simpa using htl)
            · split
              · refine ⟨by simp <;> omega, by simp <;> omega, by simp <;> omega, ?_⟩
                intro n h
                dsimp only at h
                omega
              · rename_i hlt
                exact ih 3 (tarindex + 1) _ (by omega) (by simpa using htl)
            · split
              · refine ⟨by simp <;> omega, by simp <;> omega, by simp <;> omega, ?_⟩
                intro n h
                dsimp only at h
                omega
              · rename_i hlt
                exact ih 0 (tarindex + 1) _ (by omega) (by simpa using htl)

theorem b64_pton_ok (src : List Nat) (targsize : Nat) :
    B64Ok targsize (b64_pton src targsize) := by
  unfold b64_pton
  exact b64_go_ok targsize src 0 0 _ (by omega) (by simp)

/-! ## Characterisation of the signature-file search -/

theorem vsLoop_skip_iff (c : Crypto) (keys : List Nat) (a : ZipArchive)
    (i : Nat) (hi : i < a.entries.length)
    (hcs : candidateSuccess c keys a i = false) (r : Nat) :
    ((∃ j, i + 1 ≤ j ∧ j < a.entries.length ∧
        candidateSuccess c keys a j = true ∧
        (∀ m, i + 1 ≤ m → m < j → candidateSuccess c keys a m = false) ∧
        sfIdxOf a j = some r) ↔
      (∃ j, i ≤ j ∧ j < a.entries.length ∧
        candidateSuccess c keys a j = true ∧
        (∀ m, i ≤ m → m < j → candidateSuccess c keys a m = false) ∧
        sfIdxOf a j = some r)) := by
  constructor
  · rintro ⟨j, h1, h2, h3, h4, h5⟩
    refine ⟨j, by omega, h2, h3, ?_, h5⟩
    intro m hm1 hm2
    rcases Nat.eq_or_lt_of_le hm1 with rfl | hlt
    · exact hcs
    · exact h4 m (by omega) hm2
  · rintro ⟨j, h1, h2, h3, h4, h5⟩
    have hji : j ≠ i := by
      intro he
      rw [he] at h3
      rw [h3] at hcs
      simp at hcs
    refine ⟨j, by omega, h2, h3, ?_, h5⟩
    intro m hm1 hm2
    exact h4 m (by omega) hm2

theorem vsLoopGo_some_iff (c : Crypto) (keys : List Nat) (a : ZipArchive) :
    ∀ fuel i, a.entries.length - i ≤ fuel → ∀ r,
      (vsLoopGo c keys a fuel i = some r ↔
        ∃ j, i ≤ j ∧ j < a.entries.length ∧
          candidateSuccess c keys a j = true ∧
          (∀ m, i ≤ m → m < j → candidateSuccess c keys a m = false) ∧
          sfIdxOf a j = some r) := by
  intro fuel
  induction fuel with
  | zero =>
    intro i hk r
    constructor
    · intro h
      exact absurd h (by simp [vsLoopGo])
    · rintro ⟨j, h1, h2, -⟩
      omega
  | succ fuel ih =>
    intro i hk r
    simp only [vsLoopGo]
    by_cases hi : i < a.entries.length
    · rw [if_pos hi]
      by_cases hrsa : isRsaName (entryAt a i) = true
      · rw [if_pos hrsa]
        cases hsf : sfIdxOf a i with
        | none =>
          have hcs : candidateSuccess c keys a i = false := by
            simp [candidateSuccess, hrsa, hsf]
          rw [ih (i + 1) (by omega) r]
          exact vsLoop_skip_iff c keys a i hi hcs r
        | some s =>
          dsimp only
          split
          · rename_i hkey
            have hcs : candidateSuccess c keys a i = true := by
              simp only [candidateSuccess, hrsa, hsf, Bool.true_and]
              exact hkey
            constructor
            · intro h
              have hrs : s = r := by
                injection h
              refine ⟨i, Nat.le_refl i, hi, hcs, ?_, by rw [hsf, hrs]⟩
              intro m hm1 hm2
              omega
            · rintro ⟨j, h1, h2, h3, h4, h5⟩
              rcases Nat.eq_or_lt_of_le h1 with rfl | hlt
              · rw [hsf] at h5
                injection h5 with h5e
                rw [h5e]
              · have := h4 i (Nat.le_refl i) hlt
                rw [hcs] at this
                exact absurd this (by simp)
          · rename_i hkey
            have hkf := (Bool.not_eq_true _).mp hkey
            have hcs : candidateSuccess c keys a i = false := by
              simp only [candidateSuccess, hrsa, hsf, Bool.true_and]
              exact hkf
            rw [ih (i + 1) (by omega) r]
            exact vsLoop_skip_iff c keys a i hi hcs r
      · rw [if_neg hrsa]
        have hrf := (Bool.not_eq_true _).mp hrsa
        have hcs : candidateSuccess c keys a i = false := by
          simp [candidateSuccess, hrf]
        rw [ih (i + 1) (by omega) r]
        exact vsLoop_skip_iff c keys a i hi hcs r
    · rw [if_neg hi]
      constructor
      · intro h
        exact absurd h (by simp)
      · rintro ⟨j, h1, h2, -⟩
        omega

theorem verifySignature_some_iff (c : Crypto) (keys : List Nat)
    (a : ZipArchive) (r : Nat) :
    verifySignature c keys a = some r ↔
      ∃ j, j < a.entries.length ∧
        candidateSuccess c keys a j = true ∧
        (∀ m, m < j → candidateSuccess c keys a m = false) ∧
        sfIdxOf a j = some r := by
  unfold verifySignature vsLoop
  rw [vsLoopGo_some_iff c keys a (a.entries.length - 0) 0 (by omega) r]
  constructor
  · rintro ⟨j, -, h2, h3, h4, h5⟩
    exact ⟨j, h2, h3, fun m hm => h4 m (Nat.zero_le m) hm, h5⟩
  · rintro ⟨j, h2, h3, h4, h5⟩
    exact ⟨j, Nat.zero_le j, h2, h3, fun m _ hm => h4 m hm, h5⟩

theorem vsLoopGo_keys_nil (c : Crypto) (a : ZipArchive) :
    ∀ fuel i, vsLoopGo c [] a fuel i = none := by
  intro fuel
  induction fuel with
  | zero =>
    intro i
    rfl
  | succ fuel ih =>
    intro i
    simp only [vsLoopGo]
    by_cases hi : i < a.entries.length
    · rw [if_pos hi]
      by_cases hrsa : isRsaName (entryAt a i) = true
      · rw [if_pos hrsa]
        cases hsf : sfIdxOf a i with
        | none => exact ih (i + 1)
        | some s =>
          dsimp only
          rw [if_neg (by simp)]
          exact ih (i + 1)
      · rw [if_neg hrsa]
        exact ih (i + 1)
    · rw [if_neg hi]

theorem verifySignature_keys_nil (c : Crypto) (a : ZipArchive) :
    verifySignature c [] a = none := by
  unfold verifySignature vsLoop
  exact vsLoopGo_keys_nil c a _ 0

/-! ## Decomposition of `verifyManifest` -/

theorem verifyManifest_some (c : Crypto) (a : ZipArchive) (sfIdx mfIdx : Nat)
    (h : verifyManifest c a sfIdx = some mfIdx) :
    (entryAt a sfIdx).intact = true ∧
      ∃ ds, findDM (tokenize (cString (entryAt a sfIdx).data)) = some ds ∧
        (b64_pton ds (SHA_DIGEST_SIZE + 3)).1 = (SHA_DIGEST_SIZE : Int) ∧
        a.entries.findIdx? (fun e => e.name == manifestName) = some mfIdx ∧
        (b64_pton ds (SHA_DIGEST_SIZE + 3)).2 = c.sha1 (entryAt a mfIdx).data := by
  unfold verifyManifest at h
  cases hslurp : slurpEntry a sfIdx with
  | none =>
    rw [hslurp] at h
    exact absurd h (by simp)
  | some buf =>
    rw [hslurp] at h
    dsimp only at h
    have hsl : (entryAt a sfIdx).intact = true ∧ buf = (entryAt a sfIdx).data := by
      unfold slurpEntry at hslurp
      split at hslurp
      · rename_i hin
        refine ⟨hin, ?_⟩
        injection hslurp with he
        rw [he]
      · exact absurd hslurp (by simp)
    obtain ⟨hint, hbuf⟩ := hsl
    subst hbuf
    refine ⟨hint, ?_⟩
    cases hds : findDM (tokenize (cString (entryAt a sfIdx).data)) with
    | none =>
      rw [hds] at h
      exact absurd h (by simp)
    | some ds =>
      rw [hds] at h
      dsimp only at h
      by_cases hlen : (b64_pton ds (SHA_DIGEST_SIZE + 3)).1 ≠ (SHA_DIGEST_SIZE : Int)
      · rw [if_pos hlen] at h
        exact absurd h (by simp)
      · rw [if_neg hlen] at h
        cases hmf : a.entries.findIdx? (fun e => e.name == manifestName) with
        | none =>
          rw [hmf] at h
          exact absurd h (by simp)
        | some m0 =>
          rw [hmf] at h
          dsimp only at h
          by_cases hdig :
              (b64_pton ds (SHA_DIGEST_SIZE + 3)).2 = c.sha1 (entryAt a m0).data
          · rw [if_pos hdig] at h
            have hm : m0 = mfIdx := by injection h
            subst hm
            exact ⟨ds, rfl, not_ne_iff.mp hlen, rfl, hdig⟩
          · rw [if_neg hdig] at h
            exact absurd h (by simp)

theorem verifyManifest_none_of_badLen (c : Crypto) (a : ZipArchive)
    (sfIdx : Nat) (buf ds : List Nat)
    (hbuf : slurpEntry a sfIdx = some buf)
    (hds : findDM (tokenize (cString buf)) = some ds)
    (hlen : (b64_pton ds (SHA_DIGEST_SIZE + 3)).1 ≠ (SHA_DIGEST_SIZE : Int)) :
    verifyManifest c a sfIdx = none := by
  unfold verifyManifest
  rw [hbuf]
  dsimp only
  rw [hds]
  dsimp only
  rw [if_pos hlen]

/-! ## The disambiguation of manifest line kinds -/

theorem hasPrefixNoCase_head {p line : List Nat} (q : Nat) (qs : List Nat)
    (hp : p = q :: qs) (h : hasPrefixNoCase p line = true) :
    lowerByte (line.headD 0) = lowerByte q := by
  subst hp
  unfold hasPrefixNoCase eqNoCase at h
  cases line with
  | nil => simp at h
  | cons b bs =>
    rw [List.length_cons, List.take_succ_cons, List.map_cons, List.map_cons,
      beq_iff_eq] at h
    have := List.head_eq_of_cons_eq h
    simpa using this

theorem digest_line_not_name {line : List Nat}
    (h : hasPrefixNoCase digestHdr line = true) :
    hasPrefixNoCase nameHdr line = false := by
  cases hb : hasPrefixNoCase nameHdr line with
  | false => rfl
  | true =>
    have h1 := hasPrefixNoCase_head 83 (digestHdr.drop 1) (by decide) h
    have h2 := hasPrefixNoCase_head 78 (nameHdr.drop 1) (by decide) hb
    rw [h1] at h2
    simp [lowerByte] at h2

theorem digest_line_not_cont {line : List Nat}
    (h : hasPrefixNoCase digestHdr line = true) :
    hasPrefixNoCase contHdr line = false := by
  cases hb : hasPrefixNoCase contHdr line with
  | false => rfl
  | true =>
    have h1 := hasPrefixNoCase_head 83 (digestHdr.drop 1) (by decide) h
    have h2 := hasPrefixNoCase_head 32 [] (by decide) hb
    rw [h1] at h2
    simp [lowerByte] at h2

/-! ## The coverage invariant of the manifest loop -/

/-- Invariant of the `verifyArchive` loop state: the flag array has one flag
per entry; set flags belong to required entries not yet matched; every
required entry is still flagged or was matched; every match named a required
entry, matched its SHA-1 digest, and cleared its flag; no entry was matched
twice. -/
def MfInv (c : Crypto) (a : ZipArchive) (mfIdx : Nat) (st : MfState) : Prop :=
  st.unverified.length = a.entries.length ∧
  (∀ i, st.unverified.getD i false = true → isRequired a mfIdx i = true) ∧
  (∀ i, i < a.entries.length → isRequired a mfIdx i = true →
    st.unverified.getD i false = true ∨ ∃ d, (i, d) ∈ st.cleared) ∧
  (∀ p ∈ st.cleared, isRequired a mfIdx p.1 = true ∧
    c.sha1 (entryAt a p.1).data = p.2 ∧ st.unverified.getD p.1 false = false) ∧
  (st.cleared.map Prod.fst).Nodup

theorem MfInv_init (c : Crypto) (a : ZipArchive) (mfIdx : Nat) :
    MfInv c a mfIdx ⟨initFlags a mfIdx, none, []⟩ := by
  refine ⟨by simp [initFlags], ?_, ?_, ?_, by simp⟩
  · intro i hi
    rw [show (MfState.mk (initFlags a mfIdx) none []).unverified =
        initFlags a mfIdx from rfl, initFlags_getD] at hi
    by_cases hlt : i < a.entries.length
    · rw [if_pos hlt] at hi
      exact hi
    · rw [if_neg hlt] at hi
      exact absurd hi (by simp)
  · intro i hilt hireq
    left
    rw [show (MfState.mk (initFlags a mfIdx) none []).unverified =
        initFlags a mfIdx from rfl, initFlags_getD, if_pos hilt]
    exact hireq
  · intro p hp
    exact absurd hp (by simp)

theorem MfInv_clear (c : Crypto) (a : ZipArchive) (mfIdx : Nat) (st : MfState)
    (idx : Nat) (d : List Nat) (h : MfInv c a mfIdx st)
    (hflag : st.unverified.getD idx false = true)
    (hsha : c.sha1 (entryAt a idx).data = d) :
    MfInv c a mfIdx
      ⟨st.unverified.set idx false, none, st.cleared ++ [(idx, d)]⟩ := by
  obtain ⟨hlen, hreq, hcov, hclr, hnd⟩ := h
  have hidxlt : idx < st.unverified.length := getD_true_lt_length hflag
  refine ⟨by simpa using hlen, ?_, ?_, ?_, ?_⟩
  · intro i hi
    by_cases hei : i = idx
    · subst hei
      rw [show (MfState.mk (st.unverified.set i false) none
          (st.cleared ++ [(i, d)])).unverified = st.unverified.set i false
          from rfl, getD_set_self false hidxlt] at hi
      exact absurd hi (by simp)
    · rw [show (MfState.mk (st.unverified.set idx false) none
          (st.cleared ++ [(idx, d)])).unverified = st.unverified.set idx false
          from rfl, getD_set_ne false (fun he => hei he.symm)] at hi
      exact hreq i hi
  · intro i hilt hireq
    by_cases hei : i = idx
    · subst hei
      right
      exact ⟨d, by simp⟩
    · rcases hcov i hilt hireq with hl | hr
      · left
        rw [show (MfState.mk (st.unverified.set idx false) none
            (st.cleared ++ [(idx, d)])).unverified = st.unverified.set idx false
            from rfl, getD_set_ne false (fun he => hei he.symm)]
        exact hl
      · right
        obtain ⟨d', hd'⟩ := hr
        exact ⟨d', by simp [hd']⟩
  · intro p hp
    rcases List.mem_append.mp hp with hpo | hpn
    · obtain ⟨h1, h2, h3⟩ := hclr p hpo
      refine ⟨h1, h2, ?_⟩
      have hne : p.1 ≠ idx := by
        intro he
        rw [he] at h3
        rw [h3] at hflag
        exact absurd hflag (by simp)
      rw [show (MfState.mk (st.unverified.set idx false) none
          (st.cleared ++ [(idx, d)])).unverified = st.unverified.set idx false
          from rfl, getD_set_ne false (fun he => hne he.symm)]
      exact h3
    · have hpe : p = (idx, d) := by simpa using hpn
      subst hpe
      exact ⟨hreq idx hflag, hsha, by simpa using getD_set_self false hidxlt⟩
  · rw [show (MfState.mk (st.unverified.set idx false) none
        (st.cleared ++ [(idx, d)])).cleared = st.cleared ++ [(idx, d)] from rfl,
      List.map_append]
    rw [List.nodup_append]
    refine ⟨hnd, by simp, ?_⟩
    intro x hx hx2
    have hxi : x = idx := by simpa using hx2
    subst hxi
    obtain ⟨p, hp, hpe⟩ := List.mem_map.mp hx
    have := (hclr p hp).2.2
    rw [hpe] at this
    rw [this] at hflag
    exact absurd hflag (by simp)

theorem mfLoop_inv (c : Crypto) (a : ZipArchive) (mfIdx : Nat) :
    ∀ (lines : List (List Nat)) (st : MfState), MfInv c a mfIdx st →
      MfInv c a mfIdx (mfLoop c a lines st).2 := by
  intro lines
  induction lines with
  | nil =>
    intro st h
    simpa only [mfLoop] using h
  | cons line rest ih =>
    intro st h
    rw [mfLoop]
    by_cases hname : hasPrefixNoCase nameHdr line = true
    · rw [if_pos hname]
      cases hp : st.pending with
      | some nm =>
        exact h
      | none =>
        exact ih _ h
    · rw [if_neg hname]
      by_cases hcont : hasPrefixNoCase contHdr line = true
      · rw [if_pos hcont]
        exact ih _ h
      · rw [if_neg hcont]
        by_cases hdig : hasPrefixNoCase digestHdr line = true
        · rw [if_pos hdig]
          cases hp : st.pending with
          | none => exact h
          | some nm =>
            dsimp only
            cases hfd : a.entries.findIdx? (fun e => e.name == nm) with
            | none => exact h
            | some idx =>
              dsimp only
              by_cases hni : (!(entryAt a idx).intact) = true
              · rw [if_pos hni]
                exact h
              · rw [if_neg hni]
                by_cases hflag : st.unverified.getD idx false = false
                · rw [if_pos hflag]
                  exact h
                · rw [if_neg hflag]
                  by_cases hlen : (b64_pton (line.drop 13)
                      (SHA_DIGEST_SIZE + 3)).1 ≠ (SHA_DIGEST_SIZE : Int)
                  · rw [if_pos hlen]
                    exact h
                  · rw [if_neg hlen]
                    by_cases hsha : (b64_pton (line.drop 13)
                        (SHA_DIGEST_SIZE + 3)).2 ≠ c.sha1 (entryAt a idx).data
                    · rw [if_pos hsha]
                      exact h
                    · rw [if_neg hsha]
                      apply ih
                      have hft : st.unverified.getD idx false = true := by
                        cases hb : st.unverified.getD idx false with
                        | false => exact absurd hb hflag
                        | true => rfl
                      exact MfInv_clear c a mfIdx st idx _ h hft
                        (not_ne_iff.mp hsha).symm
        · rw [if_neg hdig]
          exact ih _ h

/-- Processing a concatenation of line lists: the loop either aborts inside
the first part, or continues into the second from the state the first part
produced. -/
theorem mfLoop_append (c : Crypto) (a : ZipArchive) :
    ∀ (l1 l2 : List (List Nat)) (st : MfState),
      mfLoop c a (l1 ++ l2) st =
        if (mfLoop c a l1 st).1 then (true, (mfLoop c a l1 st).2)
        else mfLoop c a l2 (mfLoop c a l1 st).2 := by
  intro l1
  induction l1 with
  | nil =>
    intro l2 st
    simp [mfLoop]
  | cons line rest ih =>
    intro l2 st
    simp only [List.cons_append]
    by_cases hname : hasPrefixNoCase nameHdr line = true
    · cases hp : st.pending with
      | some nm =>
        have hL : mfLoop c a (line :: (rest ++ l2)) st = (true, st) := by
          rw [mfLoop, if_pos hname, hp]
        have hR : mfLoop c a (line :: rest) st = (true, st) := by
          rw [mfLoop, if_pos hname, hp]
        rw [hL, hR]
        rfl
      | none =>
        have hL : mfLoop c a (line :: (rest ++ l2)) st =
            mfLoop c a (rest ++ l2) { st with pending := some (line.drop 6) } := by
          rw [mfLoop, if_pos hname, hp]
        have hR : mfLoop c a (line :: rest) st =
            mfLoop c a rest { st with pending := some (line.drop 6) } := by
          rw [mfLoop, if_pos hname, hp]
        rw [hL, hR, ih]
    · by_cases hcont : hasPrefixNoCase contHdr line = true
      · have hL : mfLoop c a (line :: (rest ++ l2)) st =
            mfLoop c a (rest ++ l2)
              { st with pending := some (st.pending.getD nullBytes ++ line.drop 1) } := by
          rw [mfLoop, if_neg hname, if_pos hcont]
        have hR : mfLoop c a (line :: rest) st =
            mfLoop c a rest
              { st with pending := some (st.pending.getD nullBytes ++ line.drop 1) } := by
          rw [mfLoop, if_neg hname, if_pos hcont]
        rw [hL, hR, ih]
      · by_cases hdig : hasPrefixNoCase digestHdr line = true
        · cases hp : st.pending with
          | none =>
            have hL : mfLoop c a (line :: (rest ++ l2)) st = (true, st) := by
              rw [mfLoop, if_neg hname, if_neg hcont, if_pos hdig, hp]
            have hR : mfLoop c a (line :: rest) st = (true, st) := by
              rw [mfLoop, if_neg hname, if_neg hcont, if_pos hdig, hp]
            rw [hL, hR]
            rfl
          | some nm =>
            cases hfd : a.entries.findIdx? (fun e => e.name == nm) with
            | none =>
              have hL : mfLoop c a (line :: (rest ++ l2)) st = (true, st) := by
                rw [mfLoop, if_neg hname, if_neg hcont, if_pos hdig, hp]
                dsimp only
                rw [hfd]
              have hR : mfLoop c a (line :: rest) st = (true, st) := by
                rw [mfLoop, if_neg hname, if_neg hcont, if_pos hdig, hp]
                dsimp only
                rw [hfd]
              rw [hL, hR]
              rfl
            | some idx =>
              by_cases hni : (!(entryAt a idx).intact) = true
              · have hL : mfLoop c a (line :: (rest ++ l2)) st = (true, st) := by
                  rw [mfLoop, if_neg hname, if_neg hcont, if_pos hdig, hp]
                  dsimp only
                  rw [hfd]
                  dsimp only
                  rw [if_pos hni]
                have hR : mfLoop c a (line :: rest) st = (true, st) := by
                  rw [mfLoop, if_neg hname, if_neg hcont, if_pos hdig, hp]
                  dsimp only
                  rw [hfd]
                  dsimp only
                  rw [if_pos hni]
                rw [hL, hR]
                rfl
              · by_cases hflag : st.unverified.getD idx false = false
                · have hL : mfLoop c a (line :: (rest ++ l2)) st = (true, st) := by
                    rw [mfLoop, if_neg hname, if_neg hcont, if_pos hdig, hp]
                    dsimp only
                    rw [hfd]
                    dsimp only
                    rw [if_neg hni, if_pos hflag]
                  have hR : mfLoop c a (line :: rest) st = (true, st) := by
                    rw [mfLoop, if_neg hname, if_neg hcont, if_pos hdig, hp]
                    dsimp only
                    rw [hfd]
                    dsimp only
                    rw [if_neg hni, if_pos hflag]
                  rw [hL, hR]
                  rfl
                · by_cases hlen : (b64_pton (line.drop 13)
                      (SHA_DIGEST_SIZE + 3)).1 ≠ (SHA_DIGEST_SIZE : Int)
                  · have hL : mfLoop c a (line :: (rest ++ l2)) st = (true, st) := by
                      rw [mfLoop, if_neg hname, if_neg hcont, if_pos hdig, hp]
                      dsimp only
                      rw [hfd]
                      dsimp only
                      rw [if_neg hni, if_neg hflag, if_pos hlen]
                    have hR : mfLoop c a (line :: rest) st = (true, st) := by
                      rw [mfLoop, if_neg hname, if_neg hcont, if_pos hdig, hp]
                      dsimp only
                      rw [hfd]
                      dsimp only
                      rw [if_neg hni, if_neg hflag, if_pos hlen]
                    rw [hL, hR]
                    rfl
                  · by_cases hsha : (b64_pton (line.drop 13)
                        (SHA_DIGEST_SIZE + 3)).2 ≠ c.sha1 (entryAt a idx).data
                    · have hL : mfLoop c a (line :: (rest ++ l2)) st = (true, st) := by
                        rw [mfLoop, if_neg hname, if_neg hcont, if_pos hdig, hp]
                        dsimp only
                        rw [hfd]
                        dsimp only
                        rw [if_neg hni, if_neg hflag, if_neg hlen, if_pos hsha]
                      have hR : mfLoop c a (line :: rest) st = (true, st) := by
                        rw [mfLoop, if_neg hname, if_neg hcont, if_pos hdig, hp]
                        dsimp only
                        rw [hfd]
                        dsimp only
                        rw [if_neg hni, if_neg hflag, if_neg hlen, if_pos hsha]
                      rw [hL, hR]
                      rfl
                    · have hL : mfLoop c a (line :: (rest ++ l2)) st =
                          mfLoop c a (rest ++ l2)
                            ⟨st.unverified.set idx false, none,
                              st.cleared ++ [(idx, (b64_pton (line.drop 13)
                                (SHA_DIGEST_SIZE + 3)).2)]⟩ := by
                        rw [mfLoop, if_neg hname, if_neg hcont, if_pos hdig, hp]
                        dsimp only
                        rw [hfd]
                        dsimp only
                        rw [if_neg hni, if_neg hflag, if_neg hlen, if_neg hsha]
                      have hR : mfLoop c a (line :: rest) st =
                          mfLoop c a rest
                            ⟨st.unverified.set idx false, none,
                              st.cleared ++ [(idx, (b64_pton (line.drop 13)
                                (SHA_DIGEST_SIZE + 3)).2)]⟩ := by
                        rw [mfLoop, if_neg hname, if_neg hcont, if_pos hdig, hp]
                        dsimp only
                        rw [hfd]
                        dsimp only
                        rw [if_neg hni, if_neg hflag, if_neg hlen, if_neg hsha]
                      rw [hL, hR, ih]
        · have hL : mfLoop c a (line :: (rest ++ l2)) st =
              mfLoop c a (rest ++ l2) st := by
            rw [mfLoop, if_neg hname, if_neg hcont, if_neg hdig]
          have hR : mfLoop c a (line :: rest) st = mfLoop c a rest st := by
            rw [mfLoop, if_neg hname, if_neg hcont, if_neg hdig]
          rw [hL, hR, ih]

/-! ## Single-step abort facts about the manifest loop -/

theorem mfLoop_name_pending (c : Crypto) (a : ZipArchive) (st : MfState)
    (line : List Nat) (rest : List (List Nat)) (nm : List Nat)
    (hn : hasPrefixNoCase nameHdr line = true)
    (hp : st.pending = some nm) :
    (mfLoop c a (line :: rest) st).1 = true := by
  rw [mfLoop, if_pos hn, hp]

theorem mfLoop_digest_missing (c : Crypto) (a : ZipArchive) (st : MfState)
    (line : List Nat) (rest : List (List Nat)) (nm : List Nat)
    (hd : hasPrefixNoCase digestHdr line = true)
    (hp : st.pending = some nm)
    (hfd : a.entries.findIdx? (fun e => e.name == nm) = none) :
    (mfLoop c a (line :: rest) st).1 = true := by
  have hn := digest_line_not_name hd
  have hc := digest_line_not_cont hd
  rw [mfLoop, if_neg (by simp [hn]), if_neg (by simp [hc]), if_pos hd, hp]
  dsimp only
  rw [hfd]

theorem mfLoop_digest_dup (c : Crypto) (a : ZipArchive) (st : MfState)
    (line : List Nat) (rest : List (List Nat)) (nm : List Nat) (idx : Nat)
    (hd : hasPrefixNoCase digestHdr line = true)
    (hp : st.pending = some nm)
    (hfd : a.entries.findIdx? (fun e => e.name == nm) = some idx)
    (hflag : st.unverified.getD idx false = false) :
    (mfLoop c a (line :: rest) st).1 = true := by
  have hn := digest_line_not_name hd
  have hc := digest_line_not_cont hd
  rw [mfLoop, if_neg (by simp [hn]), if_neg (by simp [hc]), if_pos hd, hp]
  dsimp only
  rw [hfd]
  dsimp only
  by_cases hni : (!(entryAt a idx).intact) = true
  · rw [if_pos hni]
  · rw [if_neg hni, if_pos hflag]

theorem mfLoop_digest_badb64 (c : Crypto) (a : ZipArchive) (st : MfState)
    (line : List Nat) (rest : List (List Nat))
    (hd : hasPrefixNoCase digestHdr line = true)
    (hlen : (b64_pton (line.drop 13) (SHA_DIGEST_SIZE + 3)).1 ≠
      (SHA_DIGEST_SIZE : Int)) :
    (mfLoop c a (line :: rest) st).1 = true := by
  have hn := digest_line_not_name hd
  have hc := digest_line_not_cont hd
  rw [mfLoop, if_neg (by simp [hn]), if_neg (by simp [hc]), if_pos hd]
  cases hp : st.pending with
  | none => rfl
  | some nm =>
    dsimp only
    cases hfd : a.entries.findIdx? (fun e => e.name == nm) with
    | none => rfl
    | some idx =>
      dsimp only
      by_cases hni : (!(entryAt a idx).intact) = true
      · rw [if_pos hni]
      · rw [if_neg hni]
        by_cases hflag : st.unverified.getD idx false = false
        · rw [if_pos hflag]
        · rw [if_neg hflag, if_pos hlen]

/-! ## Decomposition of a successful `verify_jar_signature` run -/

theorem verifyArchiveRun_false_of_flag (c : Crypto) (a : ZipArchive)
    (mfIdx : Nat) (buf : List Nat) (i : Nat)
    (hbuf : slurpEntry a mfIdx = some buf)
    (hflag : (mfLoop c a (tokenize (cString buf))
      ⟨initFlags a mfIdx, none, []⟩).2.unverified.getD i false = true) :
    (verifyArchiveRun c a mfIdx).1 = false := by
  unfold verifyArchiveRun
  rw [hbuf]
  dsimp only
  by_cases hb : (mfLoop c a (tokenize (cString buf))
      ⟨initFlags a mfIdx, none, []⟩).1 = true
  · rw [if_pos hb]
  · rw [if_neg hb]
    exact getD_true_all_ne_false hflag

/-- An abort reached while processing a suffix of the line list (from the
state produced by the prefix) is an abort of the whole run. -/
theorem mfLoop_broke_of_suffix (c : Crypto) (a : ZipArchive)
    (pre l2 : List (List Nat)) (st : MfState)
    (h : (mfLoop c a l2 (mfLoop c a pre st).2).1 = true) :
    (mfLoop c a (pre ++ l2) st).1 = true := by
  rw [mfLoop_append]
  by_cases hb : (mfLoop c a pre st).1 = true
  · rw [if_pos hb]
  · rw [if_neg hb]
    exact h

/-- When the manifest parse aborts, `verifyArchive` returns false. -/
theorem verifyArchiveRun_false_of_broke (c : Crypto) (a : ZipArchive)
    (mfIdx : Nat) (buf : List Nat)
    (hbuf : slurpEntry a mfIdx = some buf)
    (hb : (mfLoop c a (tokenize (cString buf))
      ⟨initFlags a mfIdx, none, []⟩).1 = true) :
    (verifyArchiveRun c a mfIdx).1 = false := by
  unfold verifyArchiveRun
  rw [hbuf]
  dsimp only
  rw [if_pos hb]

theorem verify_jar_true_elim (c : Crypto) (keys : List Nat) (a : ZipArchive)
    (h : verify_jar_signature c keys a = true) :
    ∃ sfIdx mfIdx buf,
      verifySignature c keys a = some sfIdx ∧
      verifyManifest c a sfIdx = some mfIdx ∧
      slurpEntry a mfIdx = some buf ∧
      (mfLoop c a (tokenize (cString buf))
        ⟨initFlags a mfIdx, none, []⟩).1 = false ∧
      (mfLoop c a (tokenize (cString buf))
        ⟨initFlags a mfIdx, none, []⟩).2.unverified.all
          (fun b => b == false) = true ∧
      (verify_jar_run c keys a).2 =
        (mfLoop c a (tokenize (cString buf))
          ⟨initFlags a mfIdx, none, []⟩).2.cleared := by
  unfold verify_jar_signature at h
  unfold verify_jar_run at h ⊢
  cases hvs : verifySignature c keys a with
  | none =>
    rw [hvs] at h
    exact absurd h (by simp)
  | some sfIdx =>
    rw [hvs] at h
    dsimp only at h ⊢
    cases hvm : verifyManifest c a sfIdx with
    | none =>
      rw [hvm] at h
      exact absurd h (by simp)
    | some mfIdx =>
      rw [hvm] at h
      dsimp only at h ⊢
      unfold verifyArchiveRun at h ⊢
      cases hslurp : slurpEntry a mfIdx with
      | none =>
        rw [hslurp] at h
        exact absurd h (by simp)
      | some buf =>
        rw [hslurp] at h
        dsimp only at h ⊢
        by_cases hb : (mfLoop c a (tokenize (cString buf))
            ⟨initFlags a mfIdx, none, []⟩).1 = true
        · rw [if_pos hb] at h
          exact absurd h (by simp)
        · rw [if_neg hb] at h
          refine ⟨sfIdx, mfIdx, buf, rfl, hvm, hslurp, ?_, h, rfl⟩
          cases hbb : (mfLoop c a (tokenize (cString buf))
              ⟨initFlags a mfIdx, none, []⟩).1 with
          | false => rfl
          | true => exact absurd hbb hb

/-! ## Claim theorems -/

/-- The full characterisation of `verify_file`: `SUCCESS` iff every format
check passes and some trusted key RSA-verifies the signature bytes before
the footer against the SHA-1 digest of bytes `[0, signedLen)` with
`signedLen = eocdStart + 22 - 2`. -/
theorem verify_file_success_iff (c : Crypto) (keys : List Nat)
    (file : List Nat) :
    verify_file c keys file = VERIFY_SUCCESS ↔
      (let footer := footerOf file
       let comment_size := footer.getD 4 0 + footer.getD 5 0 * 256
       let signature_start := footer.getD 0 0 + footer.getD 1 0 * 256
       let eocd_size := comment_size + EOCD_HEADER_SIZE
       let eocdStart := file.length - eocd_size
       let signed_len := eocdStart + EOCD_HEADER_SIZE - 2
       let eocd := file.drop eocdStart
       FOOTER_SIZE ≤ file.length ∧
       footer.getD 2 0 = 0xff ∧ footer.getD 3 0 = 0xff ∧
       RSANUMBYTES + FOOTER_SIZE ≤ signature_start ∧
       eocd_size ≤ file.length ∧
       hasMagicAt eocd 0 = true ∧
       (∀ j, j < eocd_size - 3 → 4 ≤ j → hasMagicAt eocd j = false) ∧
       ∃ k ∈ keys, c.rsaVerify k (sigBytesOf file)
         (c.sha1 (file.take signed_len)) = true) := by
  unfold verify_file verify_file_run
  dsimp only
  by_cases h1 : file.length < FOOTER_SIZE
  · rw [if_pos h1]
    constructor
    · intro hh
      exact absurd hh (by decide)
    · rintro ⟨hf, -⟩
      omega
  · rw [if_neg h1]
    by_cases h2 : (footerOf file).getD 2 0 ≠ 0xff ∨ (footerOf file).getD 3 0 ≠ 0xff
    · rw [if_pos h2]
      constructor
      · intro hh
        exact absurd hh (by decide)
      · rintro ⟨-, hf2, hf3, -⟩
        rcases h2 with hx | hx
        · exact (hx hf2).elim
        · exact (hx hf3).elim
    · rw [if_neg h2]
      by_cases h3 : ((footerOf file).getD 0 0 + (footerOf file).getD 1 0 * 256 : Int) -
          (FOOTER_SIZE : Int) < (RSANUMBYTES : Int)
      · rw [if_pos (by exact_mod_cast h3)]
        constructor
        · intro hh
          exact absurd hh (by decide)
        · rintro ⟨-, -, -, hf4, -⟩
          simp only [RSANUMBYTES, FOOTER_SIZE] at hf4 h3
          omega
      · rw [if_neg (by exact_mod_cast h3)]
        by_cases h4 : file.length <
            (footerOf file).getD 4 0 + (footerOf file).getD 5 0 * 256 + EOCD_HEADER_SIZE
        · rw [if_pos h4]
          constructor
          · intro hh
            exact absurd hh (by decide)
          · rintro ⟨-, -, -, -, hf5, -⟩
            omega
        · rw [if_neg h4]
          by_cases h5 : ((file.drop (file.length -
                ((footerOf file).getD 4 0 + (footerOf file).getD 5 0 * 256 +
                  EOCD_HEADER_SIZE))).getD 0 0 ≠ 0x50 ∨
              (file.drop (file.length -
                ((footerOf file).getD 4 0 + (footerOf file).getD 5 0 * 256 +
                  EOCD_HEADER_SIZE))).getD 1 0 ≠ 0x4b ∨
              (file.drop (file.length -
                ((footerOf file).getD 4 0 + (footerOf file).getD 5 0 * 256 +
                  EOCD_HEADER_SIZE))).getD 2 0 ≠ 0x05 ∨
              (file.drop (file.length -
                ((footerOf file).getD 4 0 + (footerOf file).getD 5 0 * 256 +
                  EOCD_HEADER_SIZE))).getD 3 0 ≠ 0x06)
          · rw [if_pos h5]
            constructor
            · intro hh
              exact absurd hh (by decide)
            · rintro ⟨-, -, -, -, -, hf6, -⟩
              simp only [hasMagicAt, Bool.and_eq_true, beq_iff_eq] at hf6
              obtain ⟨⟨⟨hm0, hm1⟩, hm2⟩, hm3⟩ := hf6
              rcases h5 with hx | hx | hx | hx
              · exact (hx hm0).elim
              · exact (hx hm1).elim
              · exact (hx hm2).elim
              · exact (hx hm3).elim
          · rw [if_neg h5]
            by_cases h6 : eocdScan (file.drop (file.length -
                ((footerOf file).getD 4 0 + (footerOf file).getD 5 0 * 256 +
                  EOCD_HEADER_SIZE))) 4
                ((footerOf file).getD 4 0 + (footerOf file).getD 5 0 * 256 +
                  EOCD_HEADER_SIZE - 3) = true
            · rw [if_pos h6]
              constructor
              · intro hh
                exact absurd hh (by decide)
              · rintro ⟨-, -, -, -, -, -, hf7, -⟩
                obtain ⟨j, hj1, hj2, hj3⟩ := (eocdScan_iff _ _ _).mp h6
                have := hf7 j hj2 hj1
                rw [this] at hj3
                exact absurd hj3 (by simp)
            · rw [if_neg h6]
              rw [wfChunks_eq_take]
              by_cases h7 : keys.any (fun k => c.rsaVerify k (sigBytesOf file)
                  (c.sha1 (file.take (file.length -
                    ((footerOf file).getD 4 0 + (footerOf file).getD 5 0 * 256 +
                      EOCD_HEADER_SIZE) + EOCD_HEADER_SIZE - 2)))) = true
              · rw [if_pos h7]
                simp only [true_iff, VERIFY_SUCCESS]
                push_neg at h2 h5
                refine ⟨by omega, h2.1, h2.2, ?_, by omega, ?_, ?_, ?_⟩
                · simp only [RSANUMBYTES, FOOTER_SIZE] at h3 ⊢
                  omega
                · simp only [hasMagicAt, Bool.and_eq_true, beq_iff_eq, Nat.zero_add]
                  exact ⟨⟨⟨h5.1, h5.2.1⟩, h5.2.2.1⟩, h5.2.2.2⟩
                · intro j hj1 hj2
                  cases hb : hasMagicAt (file.drop (file.length -
                      ((footerOf file).getD 4 0 + (footerOf file).getD 5 0 * 256 +
                        EOCD_HEADER_SIZE))) j with
                  | false => rfl
                  | true =>
                    have : eocdScan (file.drop (file.length -
                        ((footerOf file).getD 4 0 + (footerOf file).getD 5 0 * 256 +
                          EOCD_HEADER_SIZE))) 4
                        ((footerOf file).getD 4 0 + (footerOf file).getD 5 0 * 256 +
                          EOCD_HEADER_SIZE - 3) = true :=
                      (eocdScan_iff _ _ _).mpr ⟨j, hj2, hj1, hb⟩
                    exact absurd this h6
                · exact List.any_eq_true.mp h7
              · rw [if_neg h7]
                constructor
                · intro hh
                  dsimp only at hh
                  exact absurd hh (by decide)
                · rintro ⟨-, -, -, -, -, -, -, hf8⟩
                  exact absurd (List.any_eq_true.mpr hf8) h7

/-- The function `verify_file` returns either `VERIFY_SUCCESS` or `VERIFY_FAILURE`. -/
theorem verify_file_cases (c : Crypto) (keys : List Nat) (file : List Nat) :
    verify_file c keys file = VERIFY_SUCCESS ∨
      verify_file c keys file = VERIFY_FAILURE := by
  unfold verify_file verify_file_run
  dsimp only
  split_ifs <;> simp

/-- A failing footer check leaves the progress trace at the single initial
`0.0` report. -/
theorem verify_file_trace_sentinel (c : Crypto) (keys : List Nat)
    (file : List Nat)
    (hbad : file.length < FOOTER_SIZE ∨
      (footerOf file).getD 2 0 ≠ 0xff ∨ (footerOf file).getD 3 0 ≠ 0xff ∨
      ((footerOf file).getD 0 0 + (footerOf file).getD 1 0 * 256 : Int) -
        (FOOTER_SIZE : Int) < (RSANUMBYTES : Int)) :
    verify_file_trace c keys file = [0] := by
  unfold verify_file_trace verify_file_run
  dsimp only
  by_cases h1 : file.length < FOOTER_SIZE
  · rw [if_pos h1]
  · rw [if_neg h1]
    by_cases h2 : (footerOf file).getD 2 0 ≠ 0xff ∨ (footerOf file).getD 3 0 ≠ 0xff
    · rw [if_pos h2]
    · rw [if_neg h2]
      by_cases h3 : ((footerOf file).getD 0 0 + (footerOf file).getD 1 0 * 256 : Int) -
          (FOOTER_SIZE : Int) < (RSANUMBYTES : Int)
      · rw [if_pos (by exact_mod_cast h3)]
      · exact absurd hbad (by push_neg; push_neg at h2 h3; exact ⟨by omega, h2.1, h2.2, by exact_mod_cast h3⟩)

/-- Every `verify_file` progress trace is the bare initial report or the
initial report followed by the hashing-loop emissions for some
`signed_len`. -/
theorem verify_file_trace_shape (c : Crypto) (keys : List Nat)
    (file : List Nat) :
    verify_file_trace c keys file = [0] ∨
      ∃ s, verify_file_trace c keys file = 0 :: wfLoopTrace s 0 (-1) := by
  unfold verify_file_trace verify_file_run
  dsimp only
  split_ifs
  case _ => left; rfl
  case _ => left; rfl
  case _ => left; rfl
  case _ => left; rfl
  case _ => left; rfl
  case _ => left; rfl
  case _ =>
    right
    exact ⟨_, rfl⟩
  case _ =>
    right
    exact ⟨_, rfl⟩

/-- When every format check passes, the `verify_file` progress trace is the
initial report followed by the hashing-loop emissions for the signed
length. -/
theorem verify_file_trace_of_checks (c : Crypto) (keys : List Nat)
    (file : List Nat)
    (h1 : FOOTER_SIZE ≤ file.length)
    (h2 : (footerOf file).getD 2 0 = 0xff ∧ (footerOf file).getD 3 0 = 0xff)
    (h3 : RSANUMBYTES + FOOTER_SIZE ≤
      (footerOf file).getD 0 0 + (footerOf file).getD 1 0 * 256)
    (h4 : (footerOf file).getD 4 0 + (footerOf file).getD 5 0 * 256 +
      EOCD_HEADER_SIZE ≤ file.length)
    (h5 : hasMagicAt (file.drop (file.length -
      ((footerOf file).getD 4 0 + (footerOf file).getD 5 0 * 256 +
        EOCD_HEADER_SIZE))) 0 = true)
    (h6 : eocdScan (file.drop (file.length -
        ((footerOf file).getD 4 0 + (footerOf file).getD 5 0 * 256 +
          EOCD_HEADER_SIZE))) 4
        ((footerOf file).getD 4 0 + (footerOf file).getD 5 0 * 256 +
          EOCD_HEADER_SIZE - 3) = false) :
    verify_file_trace c keys file =
      0 :: wfLoopTrace (file.length -
        ((footerOf file).getD 4 0 + (footerOf file).getD 5 0 * 256 +
          EOCD_HEADER_SIZE) + EOCD_HEADER_SIZE - 2) 0 (-1) := by
  have h5' := h5
  simp only [hasMagicAt, Bool.and_eq_true, beq_iff_eq, Nat.zero_add] at h5'
  unfold verify_file_trace verify_file_run
  dsimp only
  rw [if_neg (by omega),
    if_neg (by push_neg; exact h2),
    if_neg (by simp only [RSANUMBYTES, FOOTER_SIZE] at h3 ⊢; omega),
    if_neg (by omega),
    if_neg (by push_neg; exact ⟨h5'.1.1.1, h5'.1.1.2, h5'.1.2, h5'.2⟩),
    if_neg (by rw [h6]; simp)]
  split_ifs <;> rfl

set_option maxRecDepth 4000

/-! ## Concrete inputs used by witnesses and counterexamples -/

/-- A crypto oracle that accepts every signature; SHA-1 is the constant
20-zero-byte digest. -/
def cAlways : Crypto := ⟨fun _ => List.replicate 20 0, fun _ _ _ => true⟩

/-- A crypto oracle that accepts exactly the all-zero 256-byte signature. -/
def cOnlyZeroSig : Crypto :=
  ⟨fun _ => [], fun _ sig _ => sig == List.replicate RSANUMBYTES 0⟩

/-- A 42-byte archive that passes every whole-file format check: 20 content
bytes, a 22-byte EOCD with empty comment, footer
`[6, 1, FF, FF, 0, 0]` (`signature_start = 262`, `comment_size = 0`). -/
def fileOkSmall : List Nat :=
  List.replicate 20 0 ++ [80, 75, 5, 6] ++ List.replicate 12 0 ++
    [6, 1, 255, 255, 0, 0]

/-- A 300-byte file whose footer sentinel is `FF FE` instead of `FF FF`
(spec scenario S2). -/
def fileBadSentinel : List Nat :=
  List.replicate 294 0 ++ [6, 1, 255, 254, 0, 0]

/-- A 312-byte archive that passes every whole-file format check but whose
footer declares `signature_start = 300` (not `262`): 10 content bytes, a
22-byte EOCD, and a 280-byte comment ending in footer
`[44, 1, FF, FF, 24, 1]`. -/
def fileSigStart300 : List Nat :=
  List.replicate 10 0 ++ [80, 75, 5, 6] ++ List.replicate 18 0 ++
    List.replicate 274 0 ++ [44, 1, 255, 255, 24, 1]

/-- A 52-byte archive whose 30-byte comment contains a second EOCD magic at
tail offset 22 (footer `[6, 1, FF, FF, 30, 0]`). -/
def fileSecondMagic : List Nat :=
  [80, 75, 5, 6] ++ List.replicate 18 0 ++ [80, 75, 5, 6] ++
    List.replicate 20 0 ++ [6, 1, 255, 255, 30, 0]

/-- A file of 52 zero bytes: its declared tail does not start with the EOCD magic. -/
def fileNoMagic : List Nat := List.replicate 52 0

/-- Base64 of twenty zero bytes (`"AAAAAAAAAAAAAAAAAAAAAAAAAAA="`). -/
def b64zeros : List Nat := List.replicate 27 65 ++ [61]

/-- ASCII bytes of `"a.txt"`. -/
def aTxtName : List Nat := [97, 46, 116, 120, 116]

/-- A manifest with one stanza: `Name: a.txt` / `SHA1-Digest: <b64zeros>`. -/
def mfTextOk : List Nat :=
  nameHdr ++ aTxtName ++ [13, 10] ++ digestHdr ++ b64zeros ++ [13, 10]

/-- A signature file: `SHA1-Digest-Manifest: <b64zeros>`. -/
def sfTextOk : List Nat := dmHdr ++ b64zeros ++ [13, 10]

/-- ASCII bytes of `"META-INF/CERT.SF"`. -/
def certSFName : List Nat := metaInfBytes ++ [67, 69, 82, 84] ++ sfExtBytes

/-- ASCII bytes of `"META-INF/CERT.RSA"`. -/
def certRSAName : List Nat := metaInfBytes ++ [67, 69, 82, 84] ++ rsaExtBytes

/-- A well-formed JAR-style archive: manifest, `CERT.SF`, `CERT.RSA`
(256 bytes) and one data entry `a.txt` covered by the manifest. -/
def archJar : ZipArchive :=
  ⟨[⟨manifestName, mfTextOk, true⟩, ⟨certSFName, sfTextOk, true⟩,
    ⟨certRSAName, List.replicate 256 0, true⟩, ⟨aTxtName, [1, 2, 3], true⟩]⟩

/-- ASCII bytes of `"ghost"`. -/
def ghostName : List Nat := [103, 104, 111, 115, 116]

/-- The manifest `mfTextOk` followed by a trailing `Name: ghost` stanza that never
receives a digest. -/
def mfTextGhost : List Nat := mfTextOk ++ nameHdr ++ ghostName ++ [13, 10]

/-- The archive `archJar` with the ghost-trailing manifest. -/
def archJarGhost : ZipArchive :=
  ⟨[⟨manifestName, mfTextGhost, true⟩, ⟨certSFName, sfTextOk, true⟩,
    ⟨certRSAName, List.replicate 256 0, true⟩, ⟨aTxtName, [1, 2, 3], true⟩]⟩

/-- A two-entry archive with an empty manifest and one uncovered data
entry. -/
def archTwo : ZipArchive :=
  ⟨[⟨manifestName, [], true⟩, ⟨[97], [49], true⟩]⟩

/-- A signature file whose `SHA1-Digest-Manifest` value `"!"` is not valid
base64. -/
def sfTextBad : List Nat := dmHdr ++ [33]

/-- An archive whose `.SF` carries the invalid digest header. -/
def archBadSF : ZipArchive :=
  ⟨[⟨manifestName, [], true⟩, ⟨certSFName, sfTextBad, true⟩]⟩

/-- A manifest holding two consecutive `Name:` lines, the second arriving
while the first is still pending. -/
def mfTextNN : List Nat :=
  nameHdr ++ [120] ++ [13, 10] ++ nameHdr ++ [121] ++ [13, 10]

/-- An archive whose manifest has two consecutive `Name:` lines. -/
def archNN : ZipArchive :=
  ⟨[⟨manifestName, mfTextNN, true⟩, ⟨[120], [49], true⟩]⟩

/-- A manifest with a `Name: a` stanza whose `SHA1-Digest` value `"!"` is
not valid base64. -/
def mfTextBadDigest : List Nat :=
  nameHdr ++ [97] ++ [13, 10] ++ digestHdr ++ [33] ++ [13, 10]

/-- An archive whose manifest carries the invalid digest value. -/
def archBadDigest : ZipArchive :=
  ⟨[⟨manifestName, mfTextBadDigest, true⟩, ⟨[97], [49], true⟩]⟩

/-! ## C1 -/

/-- C1 (amended): `verify_file` returns `SUCCESS` iff the file passes every
format check (a footer exists; footer bytes 2–3 are the `0xFF 0xFF`
sentinel; `signature_start - FOOTER_SIZE ≥ RSANUMBYTES`; the
`comment_size + 22`-byte tail fits in the file; the tail begins with the
EOCD magic; no second EOCD magic occurs in the scanned range) AND some
trusted key — keys are tried in order, the first match returning SUCCESS —
RSA-verifies the `RSANUMBYTES` signature bytes located before the trailing
6-byte footer against the SHA-1 digest of bytes `[0, signedLen)` of the
file, with `signedLen = eocdStart + 22 - 2`.  The bare form of the original claim,
"SUCCESS iff some key verifies" fails: with a broken sentinel the function
returns FAILURE even when a key verifies (see the counterexample). -/
theorem C1_amended_success_iff (c : Crypto) (keys : List Nat)
    (file : List Nat) :
    verify_file c keys file = VERIFY_SUCCESS ↔
      (let footer := footerOf file
       let comment_size := footer.getD 4 0 + footer.getD 5 0 * 256
       let signature_start := footer.getD 0 0 + footer.getD 1 0 * 256
       let eocd_size := comment_size + EOCD_HEADER_SIZE
       let eocdStart := file.length - eocd_size
       let signed_len := eocdStart + EOCD_HEADER_SIZE - 2
       let eocd := file.drop eocdStart
       FOOTER_SIZE ≤ file.length ∧
       footer.getD 2 0 = 0xff ∧ footer.getD 3 0 = 0xff ∧
       RSANUMBYTES + FOOTER_SIZE ≤ signature_start ∧
       eocd_size ≤ file.length ∧
       hasMagicAt eocd 0 = true ∧
       (∀ j, j < eocd_size - 3 → 4 ≤ j → hasMagicAt eocd j = false) ∧
       ∃ k ∈ keys, c.rsaVerify k (sigBytesOf file)
         (c.sha1 (file.take signed_len)) = true) :=
  verify_file_success_iff c keys file

/-- C1 counterexample: on `fileBadSentinel` the right-hand side of the
right-hand side of the claim holds (a trusted key verifies the pre-footer signature bytes
against the digest of `[0, signedLen)`), yet `verify_file` returns
`FAILURE` because the footer sentinel check fails first. -/
theorem C1_counterexample :
    verify_file cAlways [0] fileBadSentinel = VERIFY_FAILURE ∧
      (∃ k ∈ [0], cAlways.rsaVerify k (sigBytesOf fileBadSentinel)
        (cAlways.sha1 (fileBadSentinel.take
          (fileBadSentinel.length -
            ((footerOf fileBadSentinel).getD 4 0 +
              (footerOf fileBadSentinel).getD 5 0 * 256 + EOCD_HEADER_SIZE) +
            EOCD_HEADER_SIZE - 2))) = true) := by
  constructor
  · decide
  · decide

/-- C1 witness: a concrete archive satisfying the amended right-hand side,
on which `verify_file` indeed returns `SUCCESS`. -/
theorem C1_amended_success_iff_witness :
    verify_file cAlways [0] fileOkSmall = VERIFY_SUCCESS :=
  (C1_amended_success_iff cAlways [0] fileOkSmall).mpr (by decide)

/-! ## C3 -/

/-- C3: whenever the EOCD-plus-comment tail (the trailing
`commentLen + 22` bytes) contains an occurrence of `50 4B 05 06` at an
offset in `[4, eocd_size − 4)`, `verify_file` returns `FAILURE` — even when
the RSA signature over the legitimate prefix would verify; and whenever the
tail does not begin with the EOCD magic at offset 0, `verify_file` returns
`FAILURE`. -/
theorem C3_hostile_eocd (c : Crypto) (keys : List Nat) (file : List Nat)
    (h6 : FOOTER_SIZE ≤ file.length)
    (hes : (footerOf file).getD 4 0 + (footerOf file).getD 5 0 * 256 +
      EOCD_HEADER_SIZE ≤ file.length) :
    ((∃ j, 4 ≤ j ∧
        j < (footerOf file).getD 4 0 + (footerOf file).getD 5 0 * 256 +
          EOCD_HEADER_SIZE - 4 ∧
        hasMagicAt (file.drop (file.length -
          ((footerOf file).getD 4 0 + (footerOf file).getD 5 0 * 256 +
            EOCD_HEADER_SIZE))) j = true) →
      verify_file c keys file = VERIFY_FAILURE) ∧
    (hasMagicAt (file.drop (file.length -
        ((footerOf file).getD 4 0 + (footerOf file).getD 5 0 * 256 +
          EOCD_HEADER_SIZE))) 0 = false →
      verify_file c keys file = VERIFY_FAILURE) := by
  constructor
  · rintro ⟨j, hj4, hjlt, hjm⟩
    rcases verify_file_cases c keys file with hs | hf
    · exfalso
      obtain ⟨-, -, -, -, -, -, h7, -⟩ :=
        (verify_file_success_iff c keys file).mp hs
      have hnone := h7 j (by omega) hj4
      rw [hnone] at hjm
      exact absurd hjm (by simp)
    · exact hf
  · intro h0
    rcases verify_file_cases c keys file with hs | hf
    · exfalso
      obtain ⟨-, -, -, -, -, h6m, -⟩ :=
        (verify_file_success_iff c keys file).mp hs
      rw [h0] at h6m
      exact absurd h6m (by simp)
    · exact hf

/-- C3 witness: a tail with a second EOCD magic fails, and a tail without
the magic at offset 0 fails. -/
theorem C3_hostile_eocd_witness :
    verify_file cAlways [0] fileSecondMagic = VERIFY_FAILURE ∧
      verify_file cAlways [0] fileNoMagic = VERIFY_FAILURE :=
  ⟨(C3_hostile_eocd cAlways [0] fileSecondMagic (by decide) (by decide)).1
      ⟨22, by decide, by decide, by decide⟩,
    (C3_hostile_eocd cAlways [0] fileNoMagic (by decide) (by decide)).2
      (by decide)⟩

/-! ## C5 -/

/-- C5 (amended): the signature bytes handed to `RSA_verify` in whole-file
mode are always the `RSANUMBYTES` file bytes that end `FOOTER_SIZE` bytes
before the end of the file — equivalently, when the trailing
`eocd_size`-byte tail holds at least `RSANUMBYTES + FOOTER_SIZE` bytes,
the bytes at tail offset `eocd_size - 6 - RSANUMBYTES`.  `signature_start`
(the little-endian 16-bit value at bytes `[fileLen-6, fileLen-5]`) only
gates the minimum-length check and plays no role in the location of the
signature bytes; the framing of the original claim,
`[fileLen - sigStart, fileLen - sigStart + RSA_MOD_BYTES)` is wrong
whenever `sigStart ≠ 262` (see the counterexample). -/
theorem C5_amended_sig_location (file : List Nat) (es : Nat)
    (h1 : RSANUMBYTES + FOOTER_SIZE ≤ es) (h2 : es ≤ file.length) :
    sigBytesOf file =
      ((file.drop (file.length - es)).drop
        (es - FOOTER_SIZE - RSANUMBYTES)).take RSANUMBYTES := by
  unfold sigBytesOf
  rw [List.drop_drop]
  have harg : file.length - FOOTER_SIZE - RSANUMBYTES =
      file.length - es + (es - FOOTER_SIZE - RSANUMBYTES) := by
    simp only [FOOTER_SIZE, RSANUMBYTES] at *
    omega
  rw [harg]

/-- C5 counterexample: on `fileSigStart300` (`signature_start = 300`)
`verify_file` succeeds with a crypto oracle accepting only the all-zero
256-byte signature — the bytes the code actually uses (`sigBytesOf`, the
256 bytes before the footer) are all zero — while the
`[fileLen - sigStart, fileLen - sigStart + 256)` slice is a different byte
string. -/
theorem C5_counterexample :
    verify_file cOnlyZeroSig [0] fileSigStart300 = VERIFY_SUCCESS ∧
      ((fileSigStart300.drop (fileSigStart300.length -
          ((footerOf fileSigStart300).getD 0 0 +
            (footerOf fileSigStart300).getD 1 0 * 256))).take RSANUMBYTES ≠
        sigBytesOf fileSigStart300) := by
  constructor
  · decide
  · decide

/-- C5 witness: on `fileSigStart300` the tail is 302 bytes, and the
signature slice the code uses equals the tail-offset framing. -/
theorem C5_amended_sig_location_witness :
    sigBytesOf fileSigStart300 =
      ((fileSigStart300.drop (fileSigStart300.length - 302)).drop
        (302 - FOOTER_SIZE - RSANUMBYTES)).take RSANUMBYTES :=
  C5_amended_sig_location fileSigStart300 302 (by decide) (by decide)

/-! ## C7 -/

/-- C7: with a footer present, if footer bytes 2–3 are not both `0xFF`
then `verify_file` returns `FAILURE` and emits no progress beyond the
initial `0.0` (no SHA-1 digest of the file is computed); and if
`signature_start - FOOTER_SIZE < RSANUMBYTES` then `verify_file` returns
`FAILURE`. -/
theorem C7_sentinel_and_short_sig (c : Crypto) (keys : List Nat)
    (file : List Nat) (h6 : FOOTER_SIZE ≤ file.length) :
    (((footerOf file).getD 2 0 ≠ 0xff ∨ (footerOf file).getD 3 0 ≠ 0xff) →
      verify_file c keys file = VERIFY_FAILURE ∧
        verify_file_trace c keys file = [0]) ∧
    ((((footerOf file).getD 0 0 + (footerOf file).getD 1 0 * 256 : Int) -
        (FOOTER_SIZE : Int) < (RSANUMBYTES : Int)) →
      verify_file c keys file = VERIFY_FAILURE) := by
  constructor
  · intro hbad
    constructor
    · rcases verify_file_cases c keys file with hs | hf
      · exfalso
        obtain ⟨-, hf2, hf3, -⟩ := (verify_file_success_iff c keys file).mp hs
        rcases hbad with hx | hx
        · exact hx hf2
        · exact hx hf3
      · exact hf
    · refine verify_file_trace_sentinel c keys file ?_
      rcases hbad with hx | hx
      · exact Or.inr (Or.inl hx)
      · exact Or.inr (Or.inr (Or.inl hx))
  · intro hshort
    rcases verify_file_cases c keys file with hs | hf
    · exfalso
      obtain ⟨-, -, -, hf4, -⟩ := (verify_file_success_iff c keys file).mp hs
      simp only [RSANUMBYTES, FOOTER_SIZE] at hf4 hshort
      omega
    · exact hf

/-- C7 witness: a 6-zero-byte file has a broken sentinel (and a too-short
signature block): `verify_file` fails with the bare initial progress
report. -/
theorem C7_sentinel_and_short_sig_witness :
    (verify_file cAlways [] (List.replicate 6 0) = VERIFY_FAILURE ∧
      verify_file_trace cAlways [] (List.replicate 6 0) = [0]) ∧
    verify_file cAlways [] (List.replicate 6 0) = VERIFY_FAILURE :=
  ⟨(C7_sentinel_and_short_sig cAlways [] (List.replicate 6 0) (by decide)).1
      (by decide),
    (C7_sentinel_and_short_sig cAlways [] (List.replicate 6 0) (by decide)).2
      (by decide)⟩

/-! ## C9 -/

/-- C9 (amended): in whole-file mode the sequence of values passed to
`ui_set_progress` is monotonically non-decreasing and bounded in
`[0.0, 1.0]`; when every format check passes (so the hashing loop runs to
completion) the last reported value is at least `0.98`.  A report is
emitted when the fraction strictly exceeds the last report by more than
`0.02`, or on the first chunk (`size == so_far`); advancing by exactly
`0.02` does not trigger a report, completion itself need not be reported,
and a verification that fails a format check ends at `0.0` (see the
counterexample). -/
theorem C9_amended_progress (c : Crypto) (keys : List Nat)
    (file : List Nat) :
    List.Chain' (· ≤ ·) (verify_file_trace c keys file) ∧
    (∀ x ∈ verify_file_trace c keys file, 0 ≤ x ∧ x ≤ 1) ∧
    ((FOOTER_SIZE ≤ file.length ∧
      (footerOf file).getD 2 0 = 0xff ∧ (footerOf file).getD 3 0 = 0xff ∧
      RSANUMBYTES + FOOTER_SIZE ≤
        (footerOf file).getD 0 0 + (footerOf file).getD 1 0 * 256 ∧
      (footerOf file).getD 4 0 + (footerOf file).getD 5 0 * 256 +
        EOCD_HEADER_SIZE ≤ file.length ∧
      hasMagicAt (file.drop (file.length -
        ((footerOf file).getD 4 0 + (footerOf file).getD 5 0 * 256 +
          EOCD_HEADER_SIZE))) 0 = true ∧
      eocdScan (file.drop (file.length -
          ((footerOf file).getD 4 0 + (footerOf file).getD 5 0 * 256 +
            EOCD_HEADER_SIZE))) 4
          ((footerOf file).getD 4 0 + (footerOf file).getD 5 0 * 256 +
            EOCD_HEADER_SIZE - 3) = false) →
      (49 : ℚ)/50 ≤ (verify_file_trace c keys file).getLastD 0) := by
  have hshape := verify_file_trace_shape c keys file
  refine ⟨?_, ?_, ?_⟩
  · rcases hshape with he | ⟨s, he⟩
    · rw [he]
      simp
    · rw [he]
      have hpw : List.Pairwise (· < ·)
          ((0 : ℚ) :: wfLoopTrace s 0 (-1)) := by
        refine List.pairwise_cons.mpr ⟨?_, wfLoopTrace_pairwise s 0 (-1)⟩
        intro y hy
        have := (wfLoopTrace_mem s 0 (-1) y hy).1
        simpa using this
      exact List.Chain'.imp (fun a b hab => le_of_lt hab) hpw.chain'
  · intro x hx
    rcases hshape with he | ⟨s, he⟩
    · rw [he] at hx
      have : x = 0 := by simpa using hx
      rw [this]
      norm_num
    · rw [he] at hx
      rcases List.mem_cons.mp hx with rfl | hx2
      · norm_num
      · have := wfLoopTrace_mem s 0 (-1) x hx2
        constructor
        · have h0 : ((0 : Nat) : ℚ) / (s : ℚ) = 0 := by simp
          rw [h0] at this
          exact le_of_lt this.1
        · exact this.2
  · rintro ⟨h1, h2a, h2b, h3, h4, h5, h6⟩
    rw [verify_file_trace_of_checks c keys file h1 ⟨h2a, h2b⟩ h3 h4 h5 h6]
    set s := file.length -
      ((footerOf file).getD 4 0 + (footerOf file).getD 5 0 * 256 +
        EOCD_HEADER_SIZE) + EOCD_HEADER_SIZE - 2 with hsdef
    have hs0 : 0 < s := by
      rw [hsdef]
      simp only [EOCD_HEADER_SIZE] at *
      omega
    have hlast := wfLoopTrace_lastD s 0 (-1) hs0
    rw [List.getLastD_cons]
    cases htr : wfLoopTrace s 0 (-1) with
    | nil =>
      rw [htr] at hlast
      simp only [List.getLastD_nil] at hlast
      norm_num at hlast
    | cons y ys =>
      rw [htr] at hlast
      rw [List.getLastD_cons] at hlast ⊢
      exact hlast

/-- C9 counterexample: a verification that fails the footer checks emits
only the initial `0.0`, which is below `0.98` — refuting the claim that
the progress sequence of every verification ends at `≥ 0.98`; moreover the
hashing loop for `signed_len = 204800` reports `1/50` after the first
chunk but does not report `2/50` after the second chunk even though
progress advanced by exactly `0.02` — refuting the claim that a report is
emitted whenever progress advanced by at least `0.02`. -/
theorem C9_counterexample :
    verify_file_trace cAlways [] [] = [0] ∧
      (([0] : List ℚ).getLastD 0 < 49/50) ∧
      (1 : ℚ)/50 ∈ wfLoopTrace 204800 0 (-1) ∧
      (2 : ℚ)/50 ∉ wfLoopTrace 204800 0 (-1) := by
  have he1 : wfLoopTrace 204800 0 (-1) =
      (1/50 : ℚ) :: wfLoopTraceGo 204800 204799 4096 (1/50) := by
    show wfLoopTraceGo 204800 (204800 - 0) 0 (-1) = _
    have hf : (204800 - 0 : Nat) = 204799 + 1 := by norm_num
    rw [hf, wfLoopTraceGo_succ 204800 204799 0 (-1) (by norm_num)]
    have hm : min BUFFER_SIZE (204800 - 0) = 4096 := by
      simp [BUFFER_SIZE]
    rw [hm]
    have hfr : ((0 + 4096 : Nat) : ℚ) / ((204800 : Nat) : ℚ) = 1/50 := by
      norm_num
    rw [if_pos (by rw [hfr]; norm_num), hfr]
  have he2 : wfLoopTraceGo 204800 204799 4096 (1/50) =
      wfLoopTraceGo 204800 204798 8192 (1/50) := by
    have hf : (204799 : Nat) = 204798 + 1 := by norm_num
    rw [hf, wfLoopTraceGo_succ 204800 204798 4096 (1/50) (by norm_num)]
    have hm : min BUFFER_SIZE (204800 - 4096) = 4096 := by
      simp [BUFFER_SIZE]
    rw [hm]
    have hfr : ((4096 + 4096 : Nat) : ℚ) / ((204800 : Nat) : ℚ) = 2/50 := by
      norm_num
    rw [if_neg (by rw [hfr]; norm_num)]
  refine ⟨rfl, by norm_num, ?_, ?_⟩
  · rw [he1]
    exact List.mem_cons_self _ _
  · intro hmem
    rw [he1] at hmem
    rcases List.mem_cons.mp hmem with heq | htail
    · norm_num at heq
    · rw [he2] at htail
      have := (wfLoopTraceGo_mem 204800 204798 8192 (1/50) _ htail).1
      have hx : ((8192 : Nat) : ℚ) / ((204800 : Nat) : ℚ) = 2/50 := by
        norm_num
      rw [hx] at this
      exact absurd this (by norm_num)

/-- C9 witness: on a concrete archive passing all checks, the trace is
monotone, bounded, and ends at `1.0 ≥ 0.98`. -/
theorem C9_amended_progress_witness :
    (∀ x ∈ verify_file_trace cAlways [0] fileOkSmall, 0 ≤ x ∧ x ≤ 1) ∧
      (49 : ℚ)/50 ≤ (verify_file_trace cAlways [0] fileOkSmall).getLastD 0 :=
  ⟨(C9_amended_progress cAlways [0] fileOkSmall).2.1,
    (C9_amended_progress cAlways [0] fileOkSmall).2.2 (by decide)⟩

/-! ## C10 -/

/-- C10: with an empty key set both entry points always fail:
`verify_file` returns `VERIFY_FAILURE` for every file and
`verify_jar_signature` returns false for every archive, because the
key-trial loops can never find a matching key. -/
theorem C10_empty_keyset (c : Crypto) (file : List Nat) (a : ZipArchive) :
    verify_file c [] file = VERIFY_FAILURE ∧
      verify_jar_signature c [] a = false := by
  constructor
  · rcases verify_file_cases c [] file with hs | hf
    · exfalso
      obtain ⟨-, -, -, -, -, -, -, k, hk, -⟩ :=
        (verify_file_success_iff c [] file).mp hs
      exact absurd hk (List.not_mem_nil k)
    · exact hf
  · unfold verify_jar_signature verify_jar_run
    rw [verifySignature_keys_nil c a]

/-! ## C2 -/

/-- C2: if `verify_jar_signature` returns true then — with `mfIdx` the
index of the `META-INF/MANIFEST.MF` entry — every non-exempt entry of the
archive (`isRequired`: not the manifest itself, not a directory entry with
name ending `/` and length 0, not a `META-INF/` entry ending
case-insensitively in `.RSA` or `.SF`) appears in the match trace, every
trace element names a required entry whose SHA-1 digest equalled the
decoded digest of its stanza, and no entry appears twice (exactly-once
coverage).  Moreover, wherever in the manifest a digest stanza names a
missing entry, the parse aborts and `verifyArchive` returns false
(missing ⇒ false), and wherever a digest stanza names an entry whose flag
is already clear — a duplicate or exempt entry — the parse aborts and
`verifyArchive` returns false (duplicate/extra ⇒ false). -/
theorem C2_coverage (c : Crypto) (keys : List Nat) (a : ZipArchive) :
    (verify_jar_signature c keys a = true →
      ∃ mfIdx, a.entries.findIdx? (fun e => e.name == manifestName) = some mfIdx ∧
        (∀ i, i < a.entries.length → isRequired a mfIdx i = true →
          ∃ d, (i, d) ∈ (verify_jar_run c keys a).2) ∧
        (∀ p ∈ (verify_jar_run c keys a).2,
          isRequired a mfIdx p.1 = true ∧
            c.sha1 (entryAt a p.1).data = p.2) ∧
        ((verify_jar_run c keys a).2.map Prod.fst).Nodup) ∧
    (∀ mfIdx buf pre line rest nm,
      slurpEntry a mfIdx = some buf →
      tokenize (cString buf) = pre ++ line :: rest →
      hasPrefixNoCase digestHdr line = true →
      (mfLoop c a pre ⟨initFlags a mfIdx, none, []⟩).2.pending = some nm →
      a.entries.findIdx? (fun e => e.name == nm) = none →
      (verifyArchiveRun c a mfIdx).1 = false) ∧
    (∀ mfIdx buf pre line rest nm idx,
      slurpEntry a mfIdx = some buf →
      tokenize (cString buf) = pre ++ line :: rest →
      hasPrefixNoCase digestHdr line = true →
      (mfLoop c a pre ⟨initFlags a mfIdx, none, []⟩).2.pending = some nm →
      a.entries.findIdx? (fun e => e.name == nm) = some idx →
      (mfLoop c a pre
        ⟨initFlags a mfIdx, none, []⟩).2.unverified.getD idx false = false →
      (verifyArchiveRun c a mfIdx).1 = false) := by
  refine ⟨?_, ?_, ?_⟩
  · intro h
    obtain ⟨sfIdx, mfIdx, buf, hvs, hvm, hslurp, hnb, hall, htr⟩ :=
      verify_jar_true_elim c keys a h
    obtain ⟨-, -, -, -, hmf, -⟩ := verifyManifest_some c a sfIdx mfIdx hvm
    have hinv := mfLoop_inv c a mfIdx (tokenize (cString buf))
      ⟨initFlags a mfIdx, none, []⟩ (MfInv_init c a mfIdx)
    obtain ⟨-, -, hcov, hclr, hnd⟩ := hinv
    refine ⟨mfIdx, hmf, ?_, ?_, ?_⟩
    · intro i hilt hireq
      rcases hcov i hilt hireq with hfl | hcl
      · exfalso
        have := all_false_of_getD hall i
        rw [this] at hfl
        exact absurd hfl (by simp)
      · rw [htr]
        exact hcl
    · intro p hp
      rw [htr] at hp
      have := hclr p hp
      exact ⟨this.1, this.2.1⟩
    · rw [htr]
      exact hnd
  · intro mfIdx buf pre line rest nm hbuf hsplit hd hp hfd
    refine verifyArchiveRun_false_of_broke c a mfIdx buf hbuf ?_
    rw [hsplit]
    exact mfLoop_broke_of_suffix c a pre (line :: rest) _
      (mfLoop_digest_missing c a _ line rest nm hd hp hfd)
  · intro mfIdx buf pre line rest nm idx hbuf hsplit hd hp hfd hflag
    refine verifyArchiveRun_false_of_broke c a mfIdx buf hbuf ?_
    rw [hsplit]
    exact mfLoop_broke_of_suffix c a pre (line :: rest) _
      (mfLoop_digest_dup c a _ line rest nm idx hd hp hfd hflag)

/-- C2 witness: on the concrete well-formed archive `archJar`
verification succeeds, so the coverage conclusions hold there. -/
theorem C2_coverage_witness :
    verify_jar_signature cAlways [0] archJar = true ∧
      (∃ mfIdx, archJar.entries.findIdx?
          (fun e => e.name == manifestName) = some mfIdx ∧
        (∀ i, i < archJar.entries.length → isRequired archJar mfIdx i = true →
          ∃ d, (i, d) ∈ (verify_jar_run cAlways [0] archJar).2) ∧
        (∀ p ∈ (verify_jar_run cAlways [0] archJar).2,
          isRequired archJar mfIdx p.1 = true ∧
            cAlways.sha1 (entryAt archJar p.1).data = p.2) ∧
        ((verify_jar_run cAlways [0] archJar).2.map Prod.fst).Nodup) :=
  ⟨by decide, (C2_coverage cAlways [0] archJar).1 (by decide)⟩

/-! ## C4 -/

/-- C4: `verify_jar_signature` returns true only if, scanning entries in
index order, some entry `i` is an `.RSA` candidate (name begins with
`META-INF/`, ends case-sensitively in `.RSA`, uncompressed length at least
`RSANUMBYTES` — `isRsaName`), its sibling `.SF` entry (the name with
`.RSA` replaced by `.SF`) exists at index `sfIdx`, the candidate is
readable, some trusted key RSA-verifies the last `RSANUMBYTES` candidate
bytes against the SHA-1 of the `.SF` contents, no earlier candidate
verifies (the first verifying `.SF` is the one used), and the `.SF`
contains a `SHA1-Digest-Manifest` header whose decoded base64 value is
exactly SHA-1 of `META-INF/MANIFEST.MF`; and if no candidate verifies the
result is false. -/
theorem C4_signature_selection (c : Crypto) (keys : List Nat)
    (a : ZipArchive) :
    (verify_jar_signature c keys a = true →
      ∃ i sfIdx mfIdx ds,
        i < a.entries.length ∧
        isRsaName (entryAt a i) = true ∧
        sfIdxOf a i = some sfIdx ∧
        (entryAt a i).intact = true ∧
        (∃ k ∈ keys, c.rsaVerify k
          ((entryAt a i).data.drop ((entryAt a i).data.length - RSANUMBYTES))
          (c.sha1 (entryAt a sfIdx).data) = true) ∧
        (∀ m, m < i → candidateSuccess c keys a m = false) ∧
        verifySignature c keys a = some sfIdx ∧
        (entryAt a sfIdx).intact = true ∧
        findDM (tokenize (cString (entryAt a sfIdx).data)) = some ds ∧
        (b64_pton ds (SHA_DIGEST_SIZE + 3)).1 = (SHA_DIGEST_SIZE : Int) ∧
        a.entries.findIdx? (fun e => e.name == manifestName) = some mfIdx ∧
        (b64_pton ds (SHA_DIGEST_SIZE + 3)).2 =
          c.sha1 (entryAt a mfIdx).data) ∧
    (verifySignature c keys a = none →
      verify_jar_signature c keys a = false) := by
  constructor
  · intro h
    obtain ⟨sfIdx, mfIdx, buf, hvs, hvm, -, -, -, -⟩ :=
      verify_jar_true_elim c keys a h
    obtain ⟨j, hjlt, hcs, hmin, hsf⟩ :=
      (verifySignature_some_iff c keys a sfIdx).mp hvs
    obtain ⟨hsint, ds, hds, hlen, hmf, hdig⟩ :=
      verifyManifest_some c a sfIdx mfIdx hvm
    have hcs2 := hcs
    simp only [candidateSuccess, hsf, Bool.and_eq_true] at hcs2
    obtain ⟨hrsa, hint, hany⟩ := hcs2
    refine ⟨j, sfIdx, mfIdx, ds, hjlt, hrsa, hsf, hint, ?_, hmin, hvs,
      hsint, hds, hlen, hmf, hdig⟩
    exact List.any_eq_true.mp hany
  · intro hnone
    unfold verify_jar_signature verify_jar_run
    rw [hnone]

/-- C4 witness: the concrete archive `archJar` verifies; its `.RSA`
candidate is entry 2, the used `.SF` entry 1, the manifest entry 0. -/
theorem C4_signature_selection_witness :
    verify_jar_signature cAlways [0] archJar = true ∧
      (∃ i sfIdx mfIdx ds,
        i < archJar.entries.length ∧
        isRsaName (entryAt archJar i) = true ∧
        sfIdxOf archJar i = some sfIdx ∧
        (entryAt archJar i).intact = true ∧
        (∃ k ∈ [0], cAlways.rsaVerify k
          ((entryAt archJar i).data.drop
            ((entryAt archJar i).data.length - RSANUMBYTES))
          (cAlways.sha1 (entryAt archJar sfIdx).data) = true) ∧
        (∀ m, m < i → candidateSuccess cAlways [0] archJar m = false) ∧
        verifySignature cAlways [0] archJar = some sfIdx ∧
        (entryAt archJar sfIdx).intact = true ∧
        findDM (tokenize (cString (entryAt archJar sfIdx).data)) = some ds ∧
        (b64_pton ds (SHA_DIGEST_SIZE + 3)).1 = (SHA_DIGEST_SIZE : Int) ∧
        archJar.entries.findIdx?
          (fun e => e.name == manifestName) = some mfIdx ∧
        (b64_pton ds (SHA_DIGEST_SIZE + 3)).2 =
          cAlways.sha1 (entryAt archJar mfIdx).data) :=
  ⟨by decide, (C4_signature_selection cAlways [0] archJar).1 (by decide)⟩

/-! ## C6 -/

/-- C6 counterexample: the archive `archJarGhost` has a manifest whose
parse ends with the pending name `ghost` that never received a
`SHA1-Digest` line (the loop does not abort and the final state carries
the unresolved pending name), yet `verify_jar_signature` returns true. -/
theorem C6_counterexample :
    (mfLoop cAlways archJarGhost (tokenize (cString mfTextGhost))
        ⟨initFlags archJarGhost 0, none, []⟩).1 = false ∧
      (mfLoop cAlways archJarGhost (tokenize (cString mfTextGhost))
        ⟨initFlags archJarGhost 0, none, []⟩).2.pending = some ghostName ∧
      slurpEntry archJarGhost 0 = some mfTextGhost ∧
      verify_jar_signature cAlways [0] archJarGhost = true := by
  refine ⟨by decide, by decide, by decide, by decide⟩

/-- C6 (amended): an unresolved pending name left at the end of the
manifest parse does not by itself make `verify_jar_signature` return
false.  What does hold: wherever in the manifest a `Name:` line arrives
while a name is still pending, the parse aborts and `verifyArchive`
returns false, and if after the parse the `unverified` flag of some
required entry is still set — in particular when the entry of the pending
stanza was never matched — `verifyArchive` returns false. -/
theorem C6_amended_pending (c : Crypto) (a : ZipArchive) :
    (∀ mfIdx buf pre line rest nm,
      slurpEntry a mfIdx = some buf →
      tokenize (cString buf) = pre ++ line :: rest →
      hasPrefixNoCase nameHdr line = true →
      (mfLoop c a pre ⟨initFlags a mfIdx, none, []⟩).2.pending = some nm →
      (verifyArchiveRun c a mfIdx).1 = false) ∧
    (∀ mfIdx buf i, slurpEntry a mfIdx = some buf →
      (mfLoop c a (tokenize (cString buf))
        ⟨initFlags a mfIdx, none, []⟩).2.unverified.getD i false = true →
      (verifyArchiveRun c a mfIdx).1 = false) := by
  constructor
  · intro mfIdx buf pre line rest nm hbuf hsplit hn hp
    refine verifyArchiveRun_false_of_broke c a mfIdx buf hbuf ?_
    rw [hsplit]
    exact mfLoop_broke_of_suffix c a pre (line :: rest) _
      (mfLoop_name_pending c a _ line rest nm hn hp)
  · intro mfIdx buf i hbuf hflag
    exact verifyArchiveRun_false_of_flag c a mfIdx buf i hbuf hflag

/-- C6 witness: a second `Name:` line while the first is pending makes
`verifyArchive` fail on `archNN`, and an uncovered required entry makes
`verifyArchive` fail on `archTwo`. -/
theorem C6_amended_pending_witness :
    (verifyArchiveRun cAlways archNN 0).1 = false ∧
      (verifyArchiveRun cAlways archTwo 0).1 = false :=
  ⟨(C6_amended_pending cAlways archNN).1 0 mfTextNN [nameHdr ++ [120]]
      (nameHdr ++ [121]) [] [120] (by decide) (by decide) (by decide)
      (by decide),
    (C6_amended_pending cAlways archTwo).2 0 [] 1 (by decide) (by decide)⟩

/-! ## C8 -/

/-- C8: every base64 digest decode during JAR verification is bounded by
its `SHA_DIGEST_SIZE + 3 = 23`-byte buffer (`b64_pton` never reports more
than `targsize` bytes and never produces more than `targsize` bytes, over-
long input failing with `-1`), reports exactly the decoded byte count, and
the callers demand exactly `SHA_DIGEST_SIZE = 20` decoded bytes: a
manifest `SHA1-Digest:` stanza whose value decodes to any other length
aborts the manifest loop and makes `verifyArchive` return false, and a
`SHA1-Digest-Manifest:` value in the `.SF` file that decodes to any other
length makes `verifyManifest` fail. -/
theorem C8_b64_exact_length (c : Crypto) (a : ZipArchive) :
    (∀ src targsize, -1 ≤ (b64_pton src targsize).1 ∧
      (b64_pton src targsize).1 ≤ (targsize : Int) ∧
      (b64_pton src targsize).2.length ≤ targsize) ∧
    (∀ src (n : Nat), (b64_pton src (SHA_DIGEST_SIZE + 3)).1 = (n : Int) →
      (b64_pton src (SHA_DIGEST_SIZE + 3)).2.length = n) ∧
    (∀ mfIdx buf pre line rest,
      slurpEntry a mfIdx = some buf →
      tokenize (cString buf) = pre ++ line :: rest →
      hasPrefixNoCase digestHdr line = true →
      (b64_pton (line.drop 13) (SHA_DIGEST_SIZE + 3)).1 ≠
        (SHA_DIGEST_SIZE : Int) →
      (verifyArchiveRun c a mfIdx).1 = false) ∧
    (∀ sfIdx buf ds, slurpEntry a sfIdx = some buf →
      findDM (tokenize (cString buf)) = some ds →
      (b64_pton ds (SHA_DIGEST_SIZE + 3)).1 ≠ (SHA_DIGEST_SIZE : Int) →
      verifyManifest c a sfIdx = none) := by
  refine ⟨?_, ?_, ?_, ?_⟩
  · intro src targsize
    have h := b64_pton_ok src targsize
    exact ⟨h.1, h.2.1, h.2.2.1⟩
  · intro src n hn
    exact (b64_pton_ok src (SHA_DIGEST_SIZE + 3)).2.2.2 n hn
  · intro mfIdx buf pre line rest hbuf hsplit hd hlen
    refine verifyArchiveRun_false_of_broke c a mfIdx buf hbuf ?_
    rw [hsplit]
    exact mfLoop_broke_of_suffix c a pre (line :: rest) _
      (mfLoop_digest_badb64 c a _ line rest hd hlen)
  · intro sfIdx buf ds hbuf hds hlen
    exact verifyManifest_none_of_badLen c a sfIdx buf ds hbuf hds hlen

/-- C8 witness: concrete decodes — a valid 28-character digest decodes to
exactly 20 bytes within the 23-byte buffer; a manifest stanza with a bad
digest value makes `verifyArchive` fail on `archBadDigest`; an `.SF` with
a bad `SHA1-Digest-Manifest` value fails. -/
theorem C8_b64_exact_length_witness :
    ((b64_pton b64zeros 23).1 ≤ (23 : Int)) ∧
      ((b64_pton b64zeros (SHA_DIGEST_SIZE + 3)).2.length = 20) ∧
      ((verifyArchiveRun cAlways archBadDigest 0).1 = false) ∧
      verifyManifest cAlways archBadSF 1 = none :=
  ⟨((C8_b64_exact_length cAlways archBadSF).1 b64zeros 23).2.1,
    (C8_b64_exact_length cAlways archBadSF).2.1 b64zeros 20 (by decide),
    (C8_b64_exact_length cAlways archBadDigest).2.2.1 0 mfTextBadDigest
      [nameHdr ++ [97]] (digestHdr ++ [33]) [] (by decide) (by decide)
      (by decide) (by decide),
    (C8_b64_exact_length cAlways archBadSF).2.2.2 1 sfTextBad [33]
      (by decide) (by decide) (by decide)⟩
